import Mathlib

/-!
Verification development for the rebdhuhn repository (formerly ebdtable2graph):
conversion of EBD decision tables into a directed graph and further into
plantuml (block grammar) and graphviz dot (declaration grammar) text.

The Python sources are shallowly embedded below.  Node keys and step numbers
are strings, graphs are association lists keyed by node key, exceptions are
modelled as Except values with one constructor per raise/assert site.
-/

deriving instance DecidableEq for Except

namespace Rebdhuhn

/-! ## String preliminaries

Character classes and the validator regexes of the table model
(ebd_table.py): step numbers match \d+\*?, result codes match [A-Z]\d+,
subsequent step numbers match (\d+\*?)|(Ende).
-/

/-- The regex ^\d+\*?$ used by the step_number validator. -/
def isStepNumber (s : String) : Bool :=
  let cs := s.data
  if cs.isEmpty then false
  else if cs.getLast? = some '*' then !cs.dropLast.isEmpty && cs.dropLast.all (·.isDigit)
  else cs.all (·.isDigit)

/-- The regex ^[A-Z]\d+$ used by the result_code validator. -/
def isResultCode (s : String) : Bool :=
  match s.data with
  | [] => false
  | c :: rest => c.isUpper && !rest.isEmpty && rest.all (·.isDigit)

/-- The regex ^(?:\d+\*?)|(Ende)$ used by the subsequent_step_number validator. -/
def isSubsequentStep (s : String) : Bool :=
  isStepNumber s || s = "Ende"

/-- Decimal value of a non-empty string of digits, None otherwise. -/
def strToNat? (s : String) : Option Nat :=
  if !s.data.isEmpty && s.data.all (·.isDigit) then
    some (s.data.foldl (fun n c => n * 10 + (c.toNat - '0'.toNat)) 0)
  else none

/-- Python int(s) on a string of decimal digits.  Python raises ValueError on
anything else; every theorem that uses this function carries hypotheses that
the strings are non-empty digit strings (strToNat?.isSome), so the default
value is never reached there. -/
def pyInt (s : String) : Nat := (strToNat? s).getD 0

/-! ## Table model (ebd_table.py)

EbdTable as consumed by the conversion logic: metadata, rows with sub rows;
a sub row has a check result (ja/nein plus optional subsequent step), an
optional outcome code and an optional note.
-/

structure EbdCheckResult where
  result : Bool
  subsequent_step_number : Option String
deriving DecidableEq, Repr

structure EbdTableSubRow where
  check_result : EbdCheckResult
  result_code : Option String
  note : Option String
deriving DecidableEq, Repr

structure EbdTableRow where
  step_number : String
  description : String
  sub_rows : List EbdTableSubRow
deriving DecidableEq, Repr

structure EbdTableMetaData where
  ebd_code : String
  chapter : String
  sub_chapter : String
  role : String
deriving DecidableEq, Repr

structure EbdTable where
  metadata : EbdTableMetaData
  rows : List EbdTableRow
deriving DecidableEq, Repr

/-! ## Graph node model (models/ebd_graph.py)

The node class hierarchy becomes one inductive; get_key is the vertex
identity used by the networkx DiGraph: Start -> "Start", End -> "Ende",
Decision -> step number, Outcome -> result code.
-/

inductive EbdGraphNode where
  | startNode : EbdGraphNode
  | endNode : EbdGraphNode
  | emptyNode : EbdGraphNode
  | decisionNode (step_number : String) (question : String) : EbdGraphNode
  | outcomeNode (result_code : String) (note : Option String) : EbdGraphNode
  | transitionalOutcomeNode (result_code : String) (subsequent_step_number : String)
      (note : Option String) : EbdGraphNode
  | transitionNode (step_number : String) (question : String) (note : Option String) :
      EbdGraphNode
deriving DecidableEq, Repr

namespace EbdGraphNode

def getKey : EbdGraphNode → String
  | startNode => "Start"
  | endNode => "Ende"
  | emptyNode => "Empty"
  | decisionNode s _ => s
  | outcomeNode c _ => c
  | transitionalOutcomeNode c ssn _ => c ++ "_" ++ ssn
  | transitionNode s _ _ => s

def isStart : EbdGraphNode → Bool
  | startNode => true
  | _ => false

def isEnd : EbdGraphNode → Bool
  | endNode => true
  | _ => false

end EbdGraphNode

/-! ## Graph builder (ebdtable2graph/__init__.py) -/

/-- _convert_sub_row_to_outcome_node: an OutcomeNode if the sub row carries a
result code, else None. -/
def _convert_sub_row_to_outcome_node (sub_row : EbdTableSubRow) : Option EbdGraphNode :=
  match sub_row.result_code with
  | some rc => some (.outcomeNode rc sub_row.note)
  | none => none

/-- _convert_row_to_decision_node. -/
def _convert_row_to_decision_node (row : EbdTableRow) : EbdGraphNode :=
  .decisionNode row.step_number row.description

/-- Inner loop of get_all_nodes over the sub rows of one row, threading the
contains_ende flag: each sub row contributes its outcome node (if any), and
the first "Ende" subsequent step overall contributes the single EndNode. -/
def subRowNodesAux : List EbdTableSubRow → Bool → List EbdGraphNode × Bool
  | [], containsEnde => ([], containsEnde)
  | sr :: rest, containsEnde =>
    let outs : List EbdGraphNode :=
      match _convert_sub_row_to_outcome_node sr with
      | some n => [n]
      | none => []
    if !containsEnde && sr.check_result.subsequent_step_number = some "Ende" then
      let p := subRowNodesAux rest true
      (outs ++ EbdGraphNode.endNode :: p.1, p.2)
    else
      let p := subRowNodesAux rest containsEnde
      (outs ++ p.1, p.2)

/-- Outer loop of get_all_nodes over the rows, threading contains_ende. -/
def getAllNodesAux : List EbdTableRow → Bool → List EbdGraphNode
  | [], _ => []
  | row :: rest, containsEnde =>
    let p := subRowNodesAux row.sub_rows containsEnde
    _convert_row_to_decision_node row :: p.1 ++ getAllNodesAux rest p.2

/-- get_all_nodes: StartNode first, then per row a decision node and per sub
row an outcome node where applicable, plus one EndNode the first time an
"Ende" subsequent step is seen. -/
def get_all_nodes (table : EbdTable) : List EbdGraphNode :=
  .startNode :: getAllNodesAux table.rows false

/-- Lookup in the Python dict comprehension nodes = \x7bnode.get_key(): node ...\x7d:
on duplicate keys the later entry wins, hence the find? over the reversed list. -/
def dictLookup (entries : List (String × EbdGraphNode)) (key : String) : Option EbdGraphNode :=
  (entries.reverse.find? (fun e => e.1 = key)).map (·.2)

inductive EdgeKind where
  | plain : EdgeKind
  | toYes : EdgeKind
  | toNo : EdgeKind
deriving DecidableEq, Repr

structure GraphEdge where
  source : EbdGraphNode
  target : EbdGraphNode
  kind : EdgeKind
deriving DecidableEq, Repr

/-- _yes_no_edge: ToYesEdge for result True, ToNoEdge for False. -/
def _yes_no_edge (decision : Bool) (source target : EbdGraphNode) : GraphEdge :=
  if decision then ⟨source, target, .toYes⟩ else ⟨source, target, .toNo⟩

/-- Failure sites of get_all_edges: a missing dict key (Python KeyError with
the key) and the assert that the sub row has an outcome node. -/
inductive BuildError where
  | keyError (key : String) : BuildError
  | assertOutcomeIsNotNone : BuildError
deriving DecidableEq, Repr

/-- Edges of one sub row of one row, as in the nested loop of get_all_edges. -/
def subRowEdge (nodes : List (String × EbdGraphNode)) (decisionNode : EbdGraphNode)
    (sub_row : EbdTableSubRow) : Except BuildError GraphEdge :=
  match sub_row.check_result.subsequent_step_number with
  | some ssn =>
    match dictLookup nodes ssn with
    | some target => .ok (_yes_no_edge sub_row.check_result.result decisionNode target)
    | none => .error (.keyError ssn)
  | none =>
    match _convert_sub_row_to_outcome_node sub_row with
    | some outcomeNode =>
      match dictLookup nodes outcomeNode.getKey with
      | some target => .ok (_yes_no_edge sub_row.check_result.result decisionNode target)
      | none => .error (.keyError outcomeNode.getKey)
    | none => .error .assertOutcomeIsNotNone

/-- get_all_edges: the Start node is connected to the node with the hard
coded key "1" (a KeyError when no row has step number "1"), then each sub
row of each row contributes one yes/no edge to its subsequent step or to its
outcome node. -/
def get_all_edges (table : EbdTable) : Except BuildError (List GraphEdge) := do
  let nodes : List (String × EbdGraphNode) :=
    (get_all_nodes table).map (fun n => (n.getKey, n))
  let firstTarget ←
    match dictLookup nodes "1" with
    | some n => pure n
    | none => Except.error (.keyError "1")
  let startEdge : GraphEdge := ⟨.startNode, firstTarget, .plain⟩
  let rowEdges ← table.rows.foldlM (fun (acc : List GraphEdge) row => do
    let decisionNode := _convert_row_to_decision_node row
    row.sub_rows.foldlM (fun acc' sr => do
      let e ← subRowEdge nodes decisionNode sr
      pure (acc' ++ [e])) acc) []
  pure (startEdge :: rowEdges)

/-! ## Directed graph (networkx DiGraph as built by convert_table_to_digraph)

Vertices are node keys carrying their node payload; edges are (source key,
target key) pairs carrying an edge kind.  Insertion order of the node list
is the iteration order of the Python graph.
-/

structure DiGraph where
  nodes : List (String × EbdGraphNode)
  edges : List (String × String × EdgeKind)
deriving DecidableEq, Repr

namespace DiGraph

def nodeKeys (g : DiGraph) : List String := g.nodes.map (·.1)

def payload? (g : DiGraph) (key : String) : Option EbdGraphNode :=
  (g.nodes.find? (fun e => e.1 = key)).map (·.2)

def successors (g : DiGraph) (key : String) : List String :=
  (g.edges.filter (fun e => e.1 = key)).map (fun e => e.2.1)

def outDegree (g : DiGraph) (key : String) : Nat :=
  (g.edges.filter (fun e => e.1 = key)).length

def inDegree (g : DiGraph) (key : String) : Nat :=
  (g.edges.filter (fun e => e.2.1 = key)).length

def outEdges (g : DiGraph) (key : String) : List (String × String × EdgeKind) :=
  g.edges.filter (fun e => e.1 = key)

end DiGraph

/-! ## Simple path enumeration (networkx all_simple_paths)

Depth first enumeration of all simple paths from source to target, in
successor (edge insertion) order.  The fuel argument only serves Lean's
termination checker; a simple path visits every node at most once, so
(number of nodes) + 1 units suffice.
-/

def simplePathsAux (g : DiGraph) : Nat → String → String → List String → List (List String)
  | 0, _, _, _ => []
  | fuel + 1, cur, target, visited =>
    if cur = target then [[cur]]
    else
      ((g.successors cur).filter (fun nxt => !visited.contains nxt && nxt ≠ cur)).flatMap
        (fun nxt => (simplePathsAux g fuel nxt target (cur :: visited)).map (cur :: ·))

def allSimplePaths (g : DiGraph) (source target : String) : List (List String) :=
  simplePathsAux g (g.nodes.length + 1) source target []

/-! ## Last common ancestor (ebdtable2graph/__init__.py) -/

/-- _find_last_common_ancestor: pop the last path as the reference path,
drop its final element (the target node), then walk the remainder backwards
and return the first node contained in all remaining paths.  none models
the ValueError "No common ancestor found." (and the IndexError on an empty
list of paths, which the caller rules out). -/
def _find_last_common_ancestor (paths : List (List String)) : Option String :=
  match paths.getLast? with
  | none => none
  | some reference_path =>
    let remaining := paths.dropLast
    (reference_path.dropLast.reverse).find?
      (fun node => remaining.all (fun path => path.contains node))

/-- Failure sites of _mark_last_common_ancestors: the assert that an
in-degree > 1 node has more than one simple path from Start, the ValueError
of _find_last_common_ancestor, and the assert that the ancestor is not the
Start node. -/
inductive MarkError where
  | pathsNotGreaterThanOne : MarkError
  | noCommonAncestorFound : MarkError
  | commonAncestorIsStart : MarkError
deriving DecidableEq, Repr

/-- Assignment into the Python node attribute dict: graph.nodes[ca]["append_node"] = v
overwrites any value stored for ca by an earlier iteration. -/
def setAppendNode (marks : List (String × String)) (ca v : String) : List (String × String) :=
  if marks.any (fun e => e.1 = ca) then
    marks.map (fun e => if e.1 = ca then (ca, v) else e)
  else marks ++ [(ca, v)]

/-- Body of the loop of _mark_last_common_ancestors for one node. -/
def markStep (g : DiGraph) (marks : List (String × String)) (node : String) :
    Except MarkError (List (String × String)) :=
  if g.inDegree node ≤ 1 then .ok marks
  else
    let paths := allSimplePaths g "Start" node
    if paths.length ≤ 1 then .error .pathsNotGreaterThanOne
    else
      match _find_last_common_ancestor paths with
      | none => .error .noCommonAncestorFound
      | some common_ancestor =>
        if common_ancestor = "Start" then .error .commonAncestorIsStart
        else .ok (setAppendNode marks common_ancestor node)

/-- _mark_last_common_ancestors: for every node with in-degree > 1, compute
the last common ancestor over all simple paths from Start and record
"append_node" on it.  The result is the association list of those marks. -/
def _mark_last_common_ancestors (g : DiGraph) : Except MarkError (List (String × String)) :=
  g.nodeKeys.foldlM (markStep g) []

/-! ## Plantuml conversion (ebdtable2graph/__init__.py) -/

def add_indent : String := "    "

/-- Failure sites of the plantuml conversion, one constructor per
assert/raise.  assertDecisionHasTwoOutgoingEdges is the bare assert
"A decision node must have exactly two outgoing edges (yes / no)." of
_convert_decision_node_to_plantuml: a constant message that carries neither
the node key nor its edges. -/
inductive PumlError where
  | markFailure (e : MarkError) : PumlError
  | assertDecisionHasTwoOutgoingEdges : PumlError
  | assertYesNoEdges (message : String) : PumlError
  | noneNoteHasNoReplace : PumlError
  | wrongNodePayload : PumlError
  | unknownNodeType : PumlError
  | assertStartHasOneOutgoingEdge : PumlError
  | assertStartConnectedToKeyOne : PumlError
  | outOfFuel : PumlError
deriving DecidableEq, Repr

/-- _get_yes_no_edges: scan the outgoing edges collecting the single ToYes
and single ToNo edge, with asserts for duplicates, unknown kinds and
missing ones.  Returns the pair (yes target, no target). -/
def _get_yes_no_edges (g : DiGraph) (node : String) : Except PumlError (String × String) :=
  let es := g.outEdges node
  let yes := es.filter (fun e => e.2.2 = EdgeKind.toYes)
  let no := es.filter (fun e => e.2.2 = EdgeKind.toNo)
  let unknown := es.filter (fun e => e.2.2 = EdgeKind.plain)
  if unknown ≠ [] then .error (.assertYesNoEdges "Unknown edge type")
  else if 2 ≤ yes.length then .error (.assertYesNoEdges "Multiple yes edges found")
  else if 2 ≤ no.length then .error (.assertYesNoEdges "Multiple no edges found")
  else
    match yes, no with
    | [y], [n] => .ok (y.2.1, n.2.1)
    | [], _ => .error (.assertYesNoEdges "No yes edge found")
    | _, _ => .error (.assertYesNoEdges "No no edge found")

/-- Python note.replace("\n", r): replace every line break character by the
replacement string.  The pattern is always the single character "\n" here. -/
def replaceNewlines (s r : String) : String :=
  ⟨s.data.flatMap (fun c => if c = '\n' then r.data else [c])⟩

/-- _convert_end_node_to_plantuml. -/
def _convert_end_node_to_plantuml (g : DiGraph) (node indent : String) :
    Except PumlError String :=
  match g.payload? node with
  | some .endNode => .ok (indent ++ "end\n")
  | _ => .error .wrongNodePayload

/-- _convert_outcome_node_to_plantuml.  outcome_node.note.replace raises on a
None note (AttributeError), modelled by noneNoteHasNoReplace. -/
def _convert_outcome_node_to_plantuml (g : DiGraph) (node indent : String) :
    Except PumlError String :=
  match g.payload? node with
  | some (.outcomeNode rc noteOpt) =>
    match noteOpt with
    | none => .error .noneNoteHasNoReplace
    | some note =>
      let note' := replaceNewlines note ("\n" ++ indent ++ add_indent)
      .ok (indent ++ ":" ++ rc ++ ";\n"
        ++ indent ++ "note left\n"
        ++ indent ++ add_indent ++ note' ++ "\n"
        ++ indent ++ "endnote\n"
        ++ indent ++ "kill;\n")
  | _ => .error .wrongNodePayload

/-- _convert_node_to_plantuml together with _convert_decision_node_to_plantuml
(they are mutually recursive in the source; the fuel argument only serves
Lean's termination checker and is chosen large enough for the graphs at
hand).  A node with in-degree > 1 renders as the empty string unless it is
being visited as the appendix of its last common ancestor. -/
def _convert_node_to_plantuml (g : DiGraph) (marks : List (String × String)) :
    Nat → String → String → Bool → Except PumlError String
  | 0, _, _, _ => .error .outOfFuel
  | fuel + 1, node, indent, appendix =>
    if 1 < g.inDegree node && !appendix then .ok ""
    else
      match g.payload? node with
      | some (.decisionNode _ question) =>
        if g.outDegree node ≠ 2 then .error .assertDecisionHasTwoOutgoingEdges
        else do
          let (yesTarget, noTarget) ← _get_yes_no_edges g node
          let yesPart ← _convert_node_to_plantuml g marks fuel yesTarget (indent ++ add_indent) false
          let noPart ← _convert_node_to_plantuml g marks fuel noTarget (indent ++ add_indent) false
          let base := indent ++ "if (" ++ question ++ ") then (ja)\n"
            ++ yesPart
            ++ indent ++ "else (nein)\n"
            ++ noPart
            ++ indent ++ "endif\n"
          match (marks.find? (fun e => e.1 = node)).map (·.2) with
          | some appendNode => do
            let appendPart ← _convert_node_to_plantuml g marks fuel appendNode indent true
            pure (base ++ appendPart)
          | none => pure base
      | some (.outcomeNode _ _) => _convert_outcome_node_to_plantuml g node indent
      | some .endNode => _convert_end_node_to_plantuml g node indent
      | _ => .error .unknownNodeType

structure EbdGraphMetaData where
  ebd_code : String
  chapter : String
  sub_chapter : String
  role : String
deriving DecidableEq, Repr

structure EbdGraph where
  metadata : EbdGraphMetaData
  graph : DiGraph
deriving DecidableEq, Repr

/-- The constant plantuml preamble plus the metadata header of
convert_graph_to_plantuml. -/
def plantumlHeader (metadata : EbdGraphMetaData) : String :=
  "@startuml\n"
  ++ "skinparam Shadowing false\n"
  ++ "skinparam NoteBorderColor #f3f1f6\n"
  ++ "skinparam NoteBackgroundColor #f3f1f6\n"
  ++ "skinparam NoteFontSize 12\n"
  ++ "skinparam ActivityBorderColor none\n"
  ++ "skinparam ActivityBackgroundColor #7a8da1\n"
  ++ "skinparam ActivityFontSize 16\n"
  ++ "skinparam ArrowColor #7aab8a\n"
  ++ "skinparam ArrowFontSize 16\n"
  ++ "skinparam ActivityDiamondBackgroundColor #7aab8a\n"
  ++ "skinparam ActivityDiamondBorderColor #7aab8a\n"
  ++ "skinparam ActivityDiamondFontSize 18\n"
  ++ "skinparam defaultFontName DejaVu Serif Condensed\n"
  ++ "skinparam ActivityEndColor #669580\n"
  ++ "\n"
  ++ "header\n"
  ++ "<b>FV2210\n"
  ++ "2022-12-12\n"
  ++ "endheader\n"
  ++ "\n"
  ++ "title\n"
  ++ metadata.chapter ++ "\n"
  ++ "\n"
  ++ metadata.sub_chapter ++ "\n"
  ++ "\n\n\n"
  ++ "end title\n"
  ++ ":<b>" ++ metadata.ebd_code ++ "</b>;\n"
  ++ "note right\n"
  ++ "<b><i>Pr√ºfende Rolle: " ++ metadata.role ++ "\n"
  ++ "end note\n"
  ++ "\n"

/-- convert_graph_to_plantuml: mark the last common ancestors, check the two
asserts on the Start node (exactly one outgoing edge, connected to key "1"),
then render recursively from node "1". -/
def convert_graph_to_plantuml (graph : EbdGraph) : Except PumlError String := do
  let g := graph.graph
  let marks ←
    match _mark_last_common_ancestors g with
    | .ok marks => pure marks
    | .error e => Except.error (.markFailure e)
  if (g.successors "Start").length ≠ 1 then Except.error .assertStartHasOneOutgoingEdge
  else if !(g.successors "Start").contains "1" then Except.error .assertStartConnectedToKeyOne
  else do
    let body ← _convert_node_to_plantuml g marks (2 * g.nodes.length + 2) "1" "" false
    pure (plantumlHeader graph.metadata ++ body ++ "\n@enduml\n")

/-! ## Text wrapping (rebdhuhn/utils.py)

The string is modelled as its list of characters.  Python str.rfind(c, 0, end)
returns the highest index i < end with s[i] = c (None here instead of -1);
str.rstrip()/str.lstrip() strip ASCII whitespace; str.replace removes every
occurrence.
-/

def isPySpace (c : Char) : Bool :=
  c = ' ' || c = '\t' || c = '\n' || c = '\x0b' || c = '\x0c' || c = '\r'

/-- Index of the last occurrence of the character in the list, if any. -/
def rfindAux (c : Char) : List Char → Option Nat
  | [] => none
  | d :: ds =>
    match rfindAux c ds with
    | some j => some (j + 1)
    | none => if d = c then some 0 else none

def rfindChar (cs : List Char) (c : Char) (stop : Nat) : Option Nat :=
  rfindAux c (cs.take stop)

def pyRstrip (cs : List Char) : List Char := (cs.reverse.dropWhile isPySpace).reverse

def pyLstrip (cs : List Char) : List Char := cs.dropWhile isPySpace

/-- One iteration of the while loop of _split_string: choose the split index
(the last line break before 1.5 * max_length if any, else the last space
before max_length if any, else max_length itself), emit the stripped part
(with line breaks removed in the first case) and continue on the stripped
remainder. -/
def splitLoopBody (cs : List Char) (max_length : Nat) : List Char × List Char :=
  let split_index_line_break := rfindChar cs '\n' (3 * max_length / 2)
  let split_index_whitespace := rfindChar cs ' ' max_length
  let split_index : Nat :=
    match split_index_line_break with
    | some i => i
    | none =>
      match split_index_whitespace with
      | some i => i
      | none => max_length
  let part := pyRstrip (cs.take split_index)
  let part := if split_index_line_break.isSome then part.filter (fun c => c ≠ '\n') else part
  (part, pyLstrip (cs.drop split_index))

/-- The while loop of _split_string.  The fuel argument only serves Lean's
termination checker; every iteration strictly shortens the string when
0 < max_length, so (length + 1) units suffice. -/
def splitLoop : Nat → List Char → Nat → List (List Char)
  | 0, _, _ => []
  | fuel + 1, cs, max_length =>
    if max_length < cs.length then
      (splitLoopBody cs max_length).1 :: splitLoop fuel (splitLoopBody cs max_length).2 max_length
    else if cs.isEmpty then [] else [cs]

/-- _split_string. -/
def _split_string (cs : List Char) (max_length : Nat) : List (List Char) :=
  splitLoop (cs.length + 1) cs max_length

/-- add_line_breaks: join the parts with the line separator. -/
def add_line_breaks (text : List Char) (max_line_length : Nat) (line_sep : List Char) :
    List Char :=
  ((_split_string text max_line_length).intersperse line_sep).flatten

/-! ## Multi step instruction ranges (rebdhuhn/graphviz.py)

MultiStepInstruction itself lives in rebdhuhn/models/ebd_table.py which is
not among the sources.  Modelled from the spec: a multi step instruction is
free text plus the first affected step number.
-/

structure MultiStepInstruction where
  instruction_text : String
  first_step_number_affected : String
deriving DecidableEq, Repr

/-- _get_step_number_from_node: hasattr(node_data, "step_number") holds
exactly for DecisionNode and TransitionNode. -/
def _get_step_number_from_node : EbdGraphNode → Option String
  | .decisionNode s _ => some s
  | .transitionNode s _ _ => some s
  | _ => none

/-- A step string falls into the half open interval [start, next_start):
the condition start <= step_int < next_start of the inner loop of
_compute_instruction_ranges. -/
def stepQualifies (start next_start : Nat) (s : String) : Prop :=
  start ≤ pyInt s ∧ pyInt s < next_start

instance (start next_start : Nat) : DecidablePred (stepQualifies start next_start) :=
  fun _ => instDecidableAnd

/-- One iteration of the inner loop of _compute_instruction_ranges. -/
def findEndStepGo (start next_start : Nat) (end_step : Option String) (step : String) :
    Option String :=
  if stepQualifies start next_start step then
    match end_step with
    | none => some step
    | some e => if pyInt e < pyInt step then some step else end_step
  else end_step

/-- The inner loop of _compute_instruction_ranges: the step number string of
highest integer value among all step numbers that fall into
[start, next_start), or None when there is none. -/
def findEndStep (start next_start : Nat) (all_step_numbers : List String) : Option String :=
  all_step_numbers.foldl (findEndStepGo start next_start) none

/-- The loop of _compute_instruction_ranges over the sorted instructions,
pairing each with its successor. -/
def rangesAux (all_step_numbers : List String) :
    List MultiStepInstruction → List (MultiStepInstruction × String × Option String)
  | [] => []
  | [inst] => [(inst, inst.first_step_number_affected, none)]
  | inst :: next :: rest =>
    let start_step := inst.first_step_number_affected
    let next_start := pyInt next.first_step_number_affected
    let end_step := findEndStep (pyInt start_step) next_start all_step_numbers
    (inst, start_step, end_step) :: rangesAux all_step_numbers (next :: rest)

/-- The comparison key of sorted(instructions, key=lambda x: int(x.first_step_number_affected)).
Python's sort is stable, as is insertion sort, so they agree. -/
def msiLe (a b : MultiStepInstruction) : Prop :=
  pyInt a.first_step_number_affected ≤ pyInt b.first_step_number_affected

instance : DecidableRel msiLe := fun a b =>
  Nat.decLe (pyInt a.first_step_number_affected) (pyInt b.first_step_number_affected)

/-- _compute_instruction_ranges. -/
def _compute_instruction_ranges (instructions : List MultiStepInstruction)
    (all_step_numbers : List String) : List (MultiStepInstruction × String × Option String) :=
  if instructions.isEmpty then []
  else rangesAux all_step_numbers (instructions.insertionSort msiLe)

/-- The upper bound int(end_step) if end_step else None: None and the falsy
empty string give no upper bound. -/
def endInt (end_step : Option String) : Option Nat :=
  match end_step with
  | some e => if e = "" then none else some (pyInt e)
  | none => none

/-- _get_nodes_in_step_range: all node keys whose step number lies in
[start_step, end_step] (both inclusive), unbounded above when end_step is
None (or falsy, i.e. the empty string). -/
def _get_nodes_in_step_range (nodes : List (String × EbdGraphNode)) (start_step : String)
    (end_step : Option String) : List String :=
  nodes.filterMap (fun entry =>
    match _get_step_number_from_node entry.2 with
    | none => none
    | some s =>
      if pyInt start_step ≤ pyInt s ∧ (∀ e ∈ endInt end_step, pyInt s ≤ e) then some entry.1
      else none)

/-- The multi step instruction part of the rebdhuhn graph: its nodes plus
the optional instructions (None and the empty list are both falsy in the
Python guard, so the empty list models both). -/
structure REbdGraph where
  nodes : List (String × EbdGraphNode)
  multi_step_instructions : List MultiStepInstruction
deriving DecidableEq, Repr

/-- One emitted piece of _convert_nodes_to_dot, keeping exactly the node
declaration structure: a cluster (its instruction note node plus the node
declarations inside it) or a top level node declaration.  The dot styling
text of a declaration is irrelevant to where and how often a node is
declared and is not modelled. -/
inductive DotPart where
  | cluster (instructionKey : String) (declared : List String) : DotPart
  | nodeDecl (key : String) : DotPart
deriving DecidableEq, Repr

/-- _get_multi_step_instruction_node_key. -/
def _get_multi_step_instruction_node_key (instruction : MultiStepInstruction) : String :=
  "msi_" ++ instruction.first_step_number_affected

/-- The all_step_numbers set of _convert_nodes_to_dot: the step numbers of
all graph nodes (a Python set; deduplicated). -/
def graphStepNumbers (g : REbdGraph) : List String :=
  (g.nodes.filterMap (fun entry => _get_step_number_from_node entry.2)).dedup

/-- The instruction ranges computed by _convert_nodes_to_dot. -/
def graphRanges (g : REbdGraph) : List (MultiStepInstruction × String × Option String) :=
  _compute_instruction_ranges g.multi_step_instructions (graphStepNumbers g)

/-- The nodes_in_clusters set of _convert_nodes_to_dot. -/
def nodesInClusters (g : REbdGraph) : List String :=
  (graphRanges g).flatMap (fun r => _get_nodes_in_step_range g.nodes r.2.1 r.2.2)

/-- _convert_nodes_to_dot: first one cluster per instruction range holding
the instruction node and every node in its step range, then one top level
declaration for every node not inside any cluster, in node order. -/
def _convert_nodes_to_dot (g : REbdGraph) : List DotPart :=
  if g.multi_step_instructions.isEmpty then
    g.nodes.map (fun entry => DotPart.nodeDecl entry.1)
  else
    ((graphRanges g).map (fun r =>
      DotPart.cluster (_get_multi_step_instruction_node_key r.1)
        (_get_nodes_in_step_range g.nodes r.2.1 r.2.2)))
    ++ ((g.nodes.filter (fun entry => !(nodesInClusters g).contains entry.1)).map
      (fun entry => DotPart.nodeDecl entry.1))

/-- How often the dot output declares the node with the given key inside
clusters. -/
def clusterDeclCount (parts : List DotPart) (key : String) : Nat :=
  (parts.map (fun p =>
    match p with
    | .cluster _ declared => declared.count key
    | .nodeDecl _ => 0)).sum

/-- How often the dot output declares the node with the given key at top
level. -/
def topDeclCount (parts : List DotPart) (key : String) : Nat :=
  (parts.map (fun p =>
    match p with
    | .cluster _ _ => 0
    | .nodeDecl k => if k = key then 1 else 0)).sum

/-! ## Outcome node deduplication (rebdhuhn/graph_conversion.py)

Modelled from the spec: rebdhuhn/graph_conversion.py is not among the
sources (only its unit tests are).  Per the spec, Outcome and
TransitionalOutcome nodes are deduplicated by outcome code using a
punctuation insensitive note comparison: notes that agree after stripping
the trailing punctuation characters . ! ? ; : , denote the same node, and
an already known code with a differing normalized note is an unrecoverable
ambiguity reported with the code and both notes.
-/

def isTrailingPunctuation (c : Char) : Bool :=
  c = '.' || c = '!' || c = '?' || c = ';' || c = ':' || c = ','

/-- Modelled from the spec: _normalize_note_for_comparison of
rebdhuhn/graph_conversion.py strips the trailing punctuation characters
from a note and passes None through. -/
def _normalize_note_for_comparison (note : Option String) : Option String :=
  note.map (fun s => ⟨(s.data.reverse.dropWhile isTrailingPunctuation).reverse⟩)

inductive OutcomeDedupError where
  | outcomeCodeAmbiguous (code : String) (existingNote : Option String)
      (newNote : Option String) : OutcomeDedupError
deriving DecidableEq, Repr

/-- Modelled from the spec: the outcome deduplication step of
rebdhuhn/graph_conversion.py.  The accumulator maps each outcome code seen
so far to the note of its node; a sub row whose code is already present
collapses onto the existing node when the normalized notes agree and fails
with the ambiguity error naming the code and both notes otherwise. -/
def addOutcome (acc : List (String × Option String)) (code : String) (note : Option String) :
    Except OutcomeDedupError (List (String × Option String)) :=
  match acc.find? (fun e => e.1 = code) with
  | some existing =>
    if _normalize_note_for_comparison existing.2 = _normalize_note_for_comparison note then
      .ok acc
    else .error (.outcomeCodeAmbiguous code existing.2 note)
  | none => .ok (acc ++ [(code, note)])

/-- Modelled from the spec: folding the deduplication step over the outcome
carrying sub rows of a table, in table order. -/
def collectOutcomes (outcomes : List (String × Option String)) :
    Except OutcomeDedupError (List (String × Option String)) :=
  outcomes.foldlM (fun acc o => addOutcome acc o.1 o.2) []

/-! ## Substring helper -/

/-- Whether the second list starts with the first one. -/
def leadsWith : List Char → List Char → Bool
  | [], _ => true
  | _ :: _, [] => false
  | c :: cs, d :: ds => c = d && leadsWith cs ds

/-- Whether the needle occurs as a contiguous substring of the haystack. -/
def hasSub (needle : List Char) : List Char → Bool
  | [] => leadsWith needle []
  | d :: ds => leadsWith needle (d :: ds) || hasSub needle ds

/-! ## Claim C1 -/

/-- A valid table whose only (hence first) row has step number "100": both
sub rows lead to an outcome, so the table needs no other row. -/
def tableFirstRowHundred : EbdTable :=
  { metadata := ⟨"E_0401", "GPKE", "6.1", "NB"⟩,
    rows := [{ step_number := "100", description := "Erste Frage?",
               sub_rows := [⟨⟨true, none⟩, some "A01", some "ok"⟩,
                            ⟨⟨false, none⟩, some "A02", some "nein"⟩] }] }

/-- Claim C1: the spec says the graph builder connects the Start node to the
node of the table's first row in table order, not to a hardcoded step key,
and that a table whose first row has a step number other than "1" builds
successfully.  The code disagrees: get_all_edges connects Start via the hard
coded dictionary key "1", so building this table whose first (and only) row
has step number "100" fails with KeyError "1" instead of succeeding — the
behaviour the repository's own test (test_key_error_because_first_node_has_key_other_than_1,
"must not raise a key error anymore") forbids. -/
theorem c1_start_edge_uses_hardcoded_key_one :
    get_all_edges tableFirstRowHundred = .error (.keyError "1") := by decide

/-! ## Claim C4 -/

/-- A valid graph in which the two distinct merge nodes A01 and A02 (both of
in-degree 2) have the same last common ancestor "1": decision 1 branches to
decisions 2 and 3, and both branch to the outcomes A01/A02. -/
def graphTwoMergesOneAncestor : DiGraph :=
  ⟨[("Start", .startNode), ("1", .decisionNode "1" "Q1?"), ("2", .decisionNode "2" "Q2?"),
    ("3", .decisionNode "3" "Q3?"), ("A01", .outcomeNode "A01" (some "N1")),
    ("A02", .outcomeNode "A02" (some "N2"))],
   [("Start", "1", .plain), ("1", "2", .toYes), ("1", "3", .toNo),
    ("2", "A01", .toYes), ("2", "A02", .toNo), ("3", "A01", .toYes), ("3", "A02", .toNo)]⟩

def ebdGraphTwoMergesOneAncestor : EbdGraph :=
  ⟨⟨"E_0000", "Kapitel", "Abschnitt", "NB"⟩, graphTwoMergesOneAncestor⟩

set_option maxRecDepth 8000 in
/-- Claim C4 says that block grammar rendering of a graph in which two
distinct in-degree > 1 nodes share one last common ancestor raises the
"topology too complex for this grammar" error and never silently renders
only one of the merge points.  The code disagrees: _mark_last_common_ancestors
stores the append_node mark of "1" for A01 and then silently overwrites it
for A02, and convert_graph_to_plantuml succeeds, rendering the merge node
A02 while dropping A01 from the output entirely — the behaviour the
repository's own GraphTooComplexForPlantumlError docstring and its
test_too_complex_for_plantuml test forbid. -/
theorem c4_same_ancestor_mark_overwritten_and_one_merge_dropped :
    _mark_last_common_ancestors graphTwoMergesOneAncestor = .ok [("1", "A02")] ∧
    (convert_graph_to_plantuml ebdGraphTwoMergesOneAncestor).map
        (fun s => (hasSub ":A01;".data s.data, hasSub ":A02;".data s.data)) =
      .ok (false, true) := by decide

/-! ## Claim C5 -/

/-- A graph containing the Decision node "1" with out-degree 1 instead of 2. -/
def graphDecisionOutDegreeOne : DiGraph :=
  ⟨[("Start", .startNode), ("1", .decisionNode "1" "Q?"), ("A01", .outcomeNode "A01" (some "N"))],
   [("Start", "1", .plain), ("1", "A01", .toYes)]⟩

def ebdGraphDecisionOutDegreeOne : EbdGraph :=
  ⟨⟨"E_0000", "Kapitel", "Abschnitt", "NB"⟩, graphDecisionOutDegreeOne⟩

/-- Claim C5 says block grammar rendering of a graph with a Decision node of
out-degree other than 2 fails with an error naming the node and its outgoing
edges.  The code half agrees: rendering always fails (never silently renders
fewer branches), but via the bare assert "A decision node must have exactly
two outgoing edges (yes / no)." whose constant message names neither the
node nor its edges; the error class that does carry them
(NotExactlyTwoOutgoingEdgesError, expected by the repository's own
test_not_exactly_two_outgoing_edges_error) is never raised by this code. -/
theorem c5_decision_out_degree_assert_is_constant :
    convert_graph_to_plantuml ebdGraphDecisionOutDegreeOne =
      .error .assertDecisionHasTwoOutgoingEdges := by decide

/-! ## Claim C7 -/

/-- Claim C7: whenever a sub row carries an outcome code that the builder has
already seen (with note existingNote), the deduplication step collapses the
two onto the single existing Outcome node exactly when the notes agree after
stripping trailing punctuation, and otherwise fails with the ambiguity error
naming the code and both notes. -/
theorem c7_outcome_dedup_by_normalized_note (acc : List (String × Option String))
    (code : String) (existingNote newNote : Option String)
    (h : acc.find? (fun e => e.1 = code) = some (code, existingNote)) :
    addOutcome acc code newNote =
      if _normalize_note_for_comparison existingNote = _normalize_note_for_comparison newNote
      then .ok acc
      else .error (.outcomeCodeAmbiguous code existingNote newNote) := by
  simp only [addOutcome, h]

/-- Witness for C7 at the spec's own example: "Done" and "Done." differ only
by trailing punctuation and collapse onto the one existing node. -/
theorem c7_outcome_dedup_witness :
    addOutcome [("A11", some "Done")] "A11" (some "Done.") =
      if _normalize_note_for_comparison (some "Done") = _normalize_note_for_comparison (some "Done.")
      then .ok [("A11", some "Done")]
      else .error (.outcomeCodeAmbiguous "A11" (some "Done") (some "Done.")) :=
  c7_outcome_dedup_by_normalized_note [("A11", some "Done")] "A11" (some "Done")
    (some "Done.") (by decide)

/-! ## Claim C9, counterexample part -/

/-- Two instructions starting at steps 100 and 200 over a graph whose only
step number is 250: the half open interval [100, 200) of the first
instruction contains no step, so the code stores None as its end step and
the first grouping becomes open ended. -/
def c9Insts : List MultiStepInstruction := [⟨"I1", "100"⟩, ⟨"I2", "200"⟩]

def c9Nodes : List (String × EbdGraphNode) := [("250", .decisionNode "250" "q")]

/-- Claim C9 states that a node with step number s belongs to instruction
i's grouping if and only if s lies in [i's first affected step, next
instruction's first affected step).  Counterexample: with instructions
starting at 100 and 200 and a single node of step 250, the computed range of
the first instruction is ("100", None), and the node "250" falls into the
first instruction's grouping although 250 is not below 200. -/
theorem c9_counterexample_empty_interval_becomes_open_ended :
    (_compute_instruction_ranges c9Insts ["250"]).map (fun r => (r.1, r.2.1, r.2.2)) =
      [(⟨"I1", "100"⟩, "100", none), (⟨"I2", "200"⟩, "200", none)] ∧
    ¬ (("250" ∈ _get_nodes_in_step_range c9Nodes "100" none) ↔
        (pyInt "100" ≤ pyInt "250" ∧ pyInt "250" < pyInt "200")) := by decide

/-! ## Claim C6 -/

/-- Once an element of the list makes the folded step fail for every
accumulator, the monadic fold over Except cannot succeed. -/
theorem foldlM_except_error {ε α β : Type} (f : β → α → Except ε β) (a : α)
    (hf : ∀ acc, ∃ e, f acc a = .error e) :
    ∀ (l : List α) (b : β), a ∈ l → ∃ e, l.foldlM f b = .error e := by
  intro l
  induction l with
  | nil => intro b h; cases h
  | cons x xs ih =>
    intro b hmem
    rcases List.mem_cons.mp hmem with rfl | hx
    · obtain ⟨e, he⟩ := hf b
      exact ⟨e, by rw [List.foldlM_cons, he]; rfl⟩
    · cases hfx : f b x with
      | error e => exact ⟨e, by rw [List.foldlM_cons, hfx]; rfl⟩
      | ok b' =>
        obtain ⟨e, he⟩ := ih b' hx
        refine ⟨e, ?_⟩
        rw [List.foldlM_cons, hfx]
        show List.foldlM f b' xs = Except.error e
        exact he

/-- Claim C6: for every node with in-degree > 1 for which fewer than two
simple paths from Start exist, the topology analysis fails with the
"number of paths should be greater than 1" error (the failure the
repository names PathsNotGreaterThanOneError) rather than computing a last
common ancestor: the per node step fails with exactly that error whatever
has been marked so far, and the whole analysis of such a graph never
succeeds. -/
theorem c6_not_enough_paths_fails (g : DiGraph) (v : String) (hmem : v ∈ g.nodeKeys)
    (hdeg : 1 < g.inDegree v) (hpaths : (allSimplePaths g "Start" v).length ≤ 1) :
    (∀ marks, markStep g marks v = .error .pathsNotGreaterThanOne) ∧
    ∃ e, _mark_last_common_ancestors g = .error e := by
  have h1 : ∀ marks, markStep g marks v = .error .pathsNotGreaterThanOne := by
    intro marks
    unfold markStep
    rw [if_neg (by omega)]
    simp only []
    rw [if_pos hpaths]
  refine ⟨h1, ?_⟩
  exact foldlM_except_error (markStep g) v (fun acc => ⟨_, h1 acc⟩) g.nodeKeys [] hmem

/-- A graph with the cycle 2 -> 3 -> 2: node "2" has in-degree 2 but only
the single simple path Start-1-2. -/
def cyclicGraph : DiGraph :=
  ⟨[("Start", .startNode), ("1", .decisionNode "1" "q1"), ("2", .decisionNode "2" "q2"),
    ("3", .decisionNode "3" "q3")],
   [("Start", "1", .plain), ("1", "2", .toYes), ("2", "3", .toYes), ("3", "2", .toNo)]⟩

/-- Witness for C6 on the concrete cyclic graph. -/
theorem c6_not_enough_paths_fails_witness :
    markStep cyclicGraph [] "2" = .error .pathsNotGreaterThanOne ∧
    ∃ e, _mark_last_common_ancestors cyclicGraph = .error e := by
  have h := c6_not_enough_paths_fails cyclicGraph "2" (by decide) (by decide) (by decide)
  exact ⟨h.1 [], h.2⟩

/-! ## Claim C2 -/

/-- The key list of the node list built from a table; deduplicated by key it
is the vertex set of the networkx DiGraph. -/
def nodeKeysOfTable (t : EbdTable) : List String :=
  (get_all_nodes t).map EbdGraphNode.getKey

/-- Whether some sub row names the terminal marker as its subsequent step. -/
def subRowsHaveEnde (srs : List EbdTableSubRow) : Bool :=
  srs.any (fun sr => sr.check_result.subsequent_step_number = some "Ende")

/-- Whether some sub row of some row names the terminal marker. -/
def rowsHaveEnde (rows : List EbdTableRow) : Bool :=
  rows.any (fun r => subRowsHaveEnde r.sub_rows)

theorem upper_not_digit (c : Char) (h : c.isUpper = true) : c.isDigit = false := by
  unfold Char.isUpper at h
  unfold Char.isDigit
  simp only [Bool.and_eq_true, decide_eq_true_eq, ge_iff_le] at h
  rw [Bool.and_eq_false_iff]
  right
  simp only [decide_eq_false_iff_not]
  intro hle
  have h3 : c.val.toNat ≤ 57 := by exact_mod_cast hle
  have h4 : 65 ≤ c.val.toNat := by exact_mod_cast h.1
  omega

theorem isStepNumber_head {s : String} (h : isStepNumber s = true) :
    ∃ c cs, s.data = c :: cs ∧ c.isDigit = true := by
  unfold isStepNumber at h
  cases hd : s.data with
  | nil => rw [hd] at h; simp at h
  | cons c cs =>
    rw [hd] at h
    rw [if_neg (by simp)] at h
    by_cases hstar : (c :: cs).getLast? = some '*'
    · rw [if_pos hstar] at h
      cases cs with
      | nil => simp at h
      | cons c2 cs2 =>
        have hdl : (c :: c2 :: cs2).dropLast = c :: (c2 :: cs2).dropLast := rfl
        rw [hdl] at h
        simp only [Bool.and_eq_true, List.all_cons] at h
        exact ⟨c, c2 :: cs2, rfl, h.2.1⟩
    · rw [if_neg hstar] at h
      simp only [List.all_cons, Bool.and_eq_true] at h
      exact ⟨c, cs, rfl, h.1⟩

theorem isResultCode_head {s : String} (h : isResultCode s = true) :
    ∃ c cs, s.data = c :: cs ∧ c.isUpper = true := by
  unfold isResultCode at h
  cases hd : s.data with
  | nil => rw [hd] at h; exact absurd h (by simp)
  | cons c cs =>
    rw [hd] at h
    simp only [Bool.and_eq_true] at h
    exact ⟨c, cs, rfl, h.1.1⟩

theorem isResultCode_not_step {s : String} (h : isResultCode s = true) :
    isStepNumber s = false := by
  cases hst : isStepNumber s
  · rfl
  · exfalso
    obtain ⟨c, cs, hd, hdig⟩ := isStepNumber_head hst
    obtain ⟨c', cs', hd', hup⟩ := isResultCode_head h
    rw [hd] at hd'
    have : c = c' := by injection hd'
    rw [← this] at hup
    rw [upper_not_digit c hup] at hdig
    exact Bool.false_ne_true hdig

theorem isStepNumber_ne_start {s : String} (h : isStepNumber s = true) : s ≠ "Start" := by
  intro he; rw [he] at h; exact absurd h (by decide)

theorem isStepNumber_ne_ende {s : String} (h : isStepNumber s = true) : s ≠ "Ende" := by
  intro he; rw [he] at h; exact absurd h (by decide)

theorem isResultCode_ne_start {s : String} (h : isResultCode s = true) : s ≠ "Start" := by
  intro he; rw [he] at h; exact absurd h (by decide)

theorem isResultCode_ne_ende {s : String} (h : isResultCode s = true) : s ≠ "Ende" := by
  intro he; rw [he] at h; exact absurd h (by decide)

theorem mem_subRowNodesAux {srs : List EbdTableSubRow} {c : Bool} {n : EbdGraphNode}
    (h : n ∈ (subRowNodesAux srs c).1) :
    (∃ sr ∈ srs, _convert_sub_row_to_outcome_node sr = some n) ∨ n = .endNode := by
  induction srs generalizing c with
  | nil => simp [subRowNodesAux] at h
  | cons sr rest ih =>
    by_cases hc : (!c && decide (sr.check_result.subsequent_step_number = some "Ende")) = true
    · rw [show subRowNodesAux (sr :: rest) c =
          (let outs : List EbdGraphNode :=
            match _convert_sub_row_to_outcome_node sr with
            | some n => [n]
            | none => [];
          (outs ++ EbdGraphNode.endNode :: (subRowNodesAux rest true).1,
            (subRowNodesAux rest true).2)) from by rw [subRowNodesAux, if_pos hc]] at h
      simp only [List.mem_append, List.mem_cons] at h
      rcases h with h | h | h
      · left
        refine ⟨sr, List.mem_cons_self _ _, ?_⟩
        cases hrc : _convert_sub_row_to_outcome_node sr <;> rw [hrc] at h <;> simp at h
        rw [h]
      · right; exact h
      · rcases @ih true h with ⟨sr', hmem, hres⟩ | he
        · exact Or.inl ⟨sr', List.mem_cons_of_mem _ hmem, hres⟩
        · exact Or.inr he
    · rw [show subRowNodesAux (sr :: rest) c =
          (let outs : List EbdGraphNode :=
            match _convert_sub_row_to_outcome_node sr with
            | some n => [n]
            | none => [];
          (outs ++ (subRowNodesAux rest c).1,
            (subRowNodesAux rest c).2)) from by rw [subRowNodesAux, if_neg hc]] at h
      simp only [List.mem_append] at h
      rcases h with h | h
      · left
        refine ⟨sr, List.mem_cons_self _ _, ?_⟩
        cases hrc : _convert_sub_row_to_outcome_node sr <;> rw [hrc] at h <;> simp at h
        rw [h]
      · rcases @ih c h with ⟨sr', hmem, hres⟩ | he
        · exact Or.inl ⟨sr', List.mem_cons_of_mem _ hmem, hres⟩
        · exact Or.inr he

theorem mem_getAllNodesAux {rows : List EbdTableRow} {c : Bool} {n : EbdGraphNode}
    (h : n ∈ getAllNodesAux rows c) :
    (∃ r ∈ rows, n = _convert_row_to_decision_node r) ∨
    (∃ r ∈ rows, ∃ sr ∈ r.sub_rows, _convert_sub_row_to_outcome_node sr = some n) ∨
    n = .endNode := by
  induction rows generalizing c with
  | nil => simp [getAllNodesAux] at h
  | cons row rest ih =>
    have hunfold : getAllNodesAux (row :: rest) c =
        (_convert_row_to_decision_node row :: (subRowNodesAux row.sub_rows c).1)
          ++ getAllNodesAux rest (subRowNodesAux row.sub_rows c).2 := rfl
    rw [hunfold] at h
    simp only [List.mem_cons, List.mem_append] at h
    rcases h with (h | h) | h
    · exact Or.inl ⟨row, List.mem_cons_self _ _, h⟩
    · rcases mem_subRowNodesAux h with ⟨sr, hmem, hres⟩ | he
      · exact Or.inr (Or.inl ⟨row, List.mem_cons_self _ _, sr, hmem, hres⟩)
      · exact Or.inr (Or.inr he)
    · rcases ih h with ⟨r, hr, hres⟩ | ⟨r, hr, hrest⟩ | he
      · exact Or.inl ⟨r, List.mem_cons_of_mem _ hr, hres⟩
      · exact Or.inr (Or.inl ⟨r, List.mem_cons_of_mem _ hr, hrest⟩)
      · exact Or.inr (Or.inr he)

theorem decision_mem_getAllNodesAux {rows : List EbdTableRow} {r : EbdTableRow}
    (hr : r ∈ rows) : ∀ c, _convert_row_to_decision_node r ∈ getAllNodesAux rows c := by
  induction rows with
  | nil => cases hr
  | cons row rest ih =>
    intro c
    rw [getAllNodesAux]
    rcases List.mem_cons.mp hr with rfl | hmem
    · exact List.mem_cons_self _ _
    · exact List.mem_cons_of_mem _ (List.mem_append_right _ (ih hmem _))

theorem subRowNodesAux_flag (srs : List EbdTableSubRow) :
    ∀ c, (subRowNodesAux srs c).2 = (c || subRowsHaveEnde srs) := by
  induction srs with
  | nil => intro c; simp [subRowNodesAux, subRowsHaveEnde]
  | cons sr rest ih =>
    intro c
    by_cases hc : (!c && decide (sr.check_result.subsequent_step_number = some "Ende")) = true
    · rw [show (subRowNodesAux (sr :: rest) c).2 = (subRowNodesAux rest true).2 from by
        rw [subRowNodesAux, if_pos hc]]
      rw [ih true]
      simp only [Bool.and_eq_true, Bool.not_eq_true', decide_eq_true_eq] at hc
      simp [subRowsHaveEnde, List.any_cons, hc.1, hc.2]
    · rw [show (subRowNodesAux (sr :: rest) c).2 = (subRowNodesAux rest c).2 from by
        rw [subRowNodesAux, if_neg hc]]
      rw [ih c]
      cases c with
      | true => simp
      | false =>
        simp only [Bool.not_true, Bool.false_and, Bool.not_false, Bool.true_and,
          Bool.and_eq_true, decide_eq_true_eq] at hc ⊢
        simp only [subRowsHaveEnde, List.any_cons, Bool.false_or]
        rw [decide_eq_false hc]
        simp [subRowsHaveEnde]

theorem outs_count_ende (sr : EbdTableSubRow) :
    (match _convert_sub_row_to_outcome_node sr with
      | some n => [n]
      | none => ([] : List EbdGraphNode)).count EbdGraphNode.endNode = 0 := by
  cases hrc2 : sr.result_code <;>
    simp [_convert_sub_row_to_outcome_node, hrc2, List.count_cons, List.count_nil]

theorem subRowNodesAux_count_ende (srs : List EbdTableSubRow) :
    ∀ c, ((subRowNodesAux srs c).1).count EbdGraphNode.endNode =
      if c then 0 else if subRowsHaveEnde srs then 1 else 0 := by
  induction srs with
  | nil => intro c; cases c <;> simp [subRowNodesAux, subRowsHaveEnde]
  | cons sr rest ih =>
    intro c
    by_cases hc : (!c && decide (sr.check_result.subsequent_step_number = some "Ende")) = true
    · rw [show (subRowNodesAux (sr :: rest) c).1 =
          ((match _convert_sub_row_to_outcome_node sr with
            | some n => [n]
            | none => []) ++ EbdGraphNode.endNode :: (subRowNodesAux rest true).1) from by
        rw [subRowNodesAux, if_pos hc]]
      rw [List.count_append, outs_count_ende sr, List.count_cons_self, ih true]
      simp only [Bool.and_eq_true, Bool.not_eq_true', decide_eq_true_eq] at hc
      simp [hc.1, subRowsHaveEnde, List.any_cons, hc.2]
    · rw [show (subRowNodesAux (sr :: rest) c).1 =
          ((match _convert_sub_row_to_outcome_node sr with
            | some n => [n]
            | none => []) ++ (subRowNodesAux rest c).1) from by
        rw [subRowNodesAux, if_neg hc]]
      rw [List.count_append, outs_count_ende sr, ih c]
      cases c with
      | true => simp
      | false =>
        simp only [Bool.not_false, Bool.true_and, decide_eq_true_eq] at hc
        simp [subRowsHaveEnde, List.any_cons, hc]

theorem getAllNodesAux_count_ende (rows : List EbdTableRow) :
    ∀ c, (getAllNodesAux rows c).count EbdGraphNode.endNode =
      if c then 0 else if rowsHaveEnde rows then 1 else 0 := by
  induction rows with
  | nil => intro c; cases c <;> simp [getAllNodesAux, rowsHaveEnde]
  | cons row rest ih =>
    intro c
    have hunfold : getAllNodesAux (row :: rest) c =
        (_convert_row_to_decision_node row :: (subRowNodesAux row.sub_rows c).1)
          ++ getAllNodesAux rest (subRowNodesAux row.sub_rows c).2 := rfl
    have hne : EbdGraphNode.endNode ≠ _convert_row_to_decision_node row := by
      simp [_convert_row_to_decision_node]
    rw [hunfold, List.count_append, List.count_cons_of_ne hne]
    rw [subRowNodesAux_count_ende row.sub_rows c, ih _, subRowNodesAux_flag row.sub_rows c]
    cases c with
    | true => simp
    | false =>
      cases hsr : subRowsHaveEnde row.sub_rows with
      | true => simp [rowsHaveEnde, List.any_cons, hsr]
      | false => simp [rowsHaveEnde, List.any_cons, hsr]

theorem convert_sub_row_eq_some {sr : EbdTableSubRow} {n : EbdGraphNode}
    (h : _convert_sub_row_to_outcome_node sr = some n) :
    ∃ rc, sr.result_code = some rc ∧ n = .outcomeNode rc sr.note := by
  unfold _convert_sub_row_to_outcome_node at h
  cases hrc : sr.result_code with
  | none => rw [hrc] at h; cases h
  | some rc =>
    rw [hrc] at h
    exact ⟨rc, rfl, by injection h with h'; rw [← h']⟩

/-- Claim C2: for every valid table, the key list of the built node list
holds exactly one "Start" key; it holds the "Ende" key exactly once if some
sub row's subsequent step is the terminal marker and not at all otherwise; a
step number string is a node key exactly when it is the step number of some
row; and the deduplicated key list (the vertex set of the DiGraph) holds one
node per distinct step number of the table's rows. -/
theorem c2_node_set_start_ende_steps (t : EbdTable)
    (hsteps : ∀ r ∈ t.rows, isStepNumber r.step_number = true)
    (hcodes : ∀ r ∈ t.rows, ∀ sr ∈ r.sub_rows, ∀ rc ∈ sr.result_code, isResultCode rc = true) :
    (nodeKeysOfTable t).count "Start" = 1 ∧
    ((nodeKeysOfTable t).count "Ende" = if rowsHaveEnde t.rows then 1 else 0) ∧
    (∀ s, isStepNumber s = true →
      (s ∈ nodeKeysOfTable t ↔ s ∈ t.rows.map EbdTableRow.step_number)) ∧
    (∀ s, s ∈ t.rows.map EbdTableRow.step_number → (nodeKeysOfTable t).dedup.count s = 1) := by
  have hkeys : nodeKeysOfTable t =
      "Start" :: (getAllNodesAux t.rows false).map EbdGraphNode.getKey := rfl
  have hmemkey : ∀ {s : String}, s ∈ (getAllNodesAux t.rows false).map EbdGraphNode.getKey →
      isStepNumber s = true → s ∈ t.rows.map EbdTableRow.step_number := by
    intro s hs hvalid
    obtain ⟨n, hn, hkey⟩ := List.mem_map.mp hs
    rcases mem_getAllNodesAux hn with ⟨r, hr, rfl⟩ | ⟨r, hr, sr, hsr, hconv⟩ | rfl
    · rw [← hkey]
      exact List.mem_map.mpr ⟨r, hr, rfl⟩
    · exfalso
      obtain ⟨rc, hrc, rfl⟩ := convert_sub_row_eq_some hconv
      have hcode : isResultCode rc = true := hcodes r hr sr hsr rc hrc
      have : EbdGraphNode.getKey (.outcomeNode rc sr.note) = rc := rfl
      rw [this] at hkey
      rw [hkey] at hcode
      rw [isResultCode_not_step hcode] at hvalid
      exact Bool.false_ne_true hvalid
    · exfalso
      have : EbdGraphNode.getKey .endNode = "Ende" := rfl
      rw [this] at hkey
      exact isStepNumber_ne_ende hvalid hkey.symm
  have hstepmem : ∀ {s : String}, s ∈ t.rows.map EbdTableRow.step_number →
      s ∈ nodeKeysOfTable t := by
    intro s hs
    obtain ⟨r, hr, hkey⟩ := List.mem_map.mp hs
    rw [hkeys]
    refine List.mem_cons_of_mem _ (List.mem_map.mpr ⟨_convert_row_to_decision_node r,
      decision_mem_getAllNodesAux hr false, ?_⟩)
    rw [← hkey]; rfl
  refine ⟨?_, ?_, ?_, ?_⟩
  · rw [hkeys, List.count_cons_self]
    rw [List.count_eq_zero.mpr ?_]
    · intro hmem
      obtain ⟨n, hn, hkey⟩ := List.mem_map.mp hmem
      rcases mem_getAllNodesAux hn with ⟨r, hr, rfl⟩ | ⟨r, hr, sr, hsr, hconv⟩ | rfl
      · exact isStepNumber_ne_start (hsteps r hr) hkey
      · obtain ⟨rc, hrc, rfl⟩ := convert_sub_row_eq_some hconv
        exact isResultCode_ne_start (hcodes r hr sr hsr rc hrc) hkey
      · exact absurd hkey (by decide)
  · rw [hkeys, List.count_cons_of_ne (by decide)]
    have h1 : List.count "Ende" ((getAllNodesAux t.rows false).map EbdGraphNode.getKey) =
        List.countP (fun n => EbdGraphNode.getKey n == "Ende") (getAllNodesAux t.rows false) := by
      show List.countP (fun s => s == "Ende") ((getAllNodesAux t.rows false).map EbdGraphNode.getKey) = _
      rw [List.countP_map]
      rfl
    rw [h1]
    have hcongr : List.countP (fun n => EbdGraphNode.getKey n == "Ende")
        (getAllNodesAux t.rows false) =
        List.countP (fun n => n == EbdGraphNode.endNode) (getAllNodesAux t.rows false) := by
      refine List.countP_congr ?_
      intro n hn
      simp only [beq_iff_eq]
      rcases mem_getAllNodesAux hn with ⟨r, hr, rfl⟩ | ⟨r, hr, sr, hsr, hconv⟩ | rfl
      · constructor
        · intro hk
          have hk' : r.step_number = "Ende" := hk
          exact absurd hk' (isStepNumber_ne_ende (hsteps r hr))
        · intro hk
          exact absurd hk (by simp [_convert_row_to_decision_node])
      · obtain ⟨rc, hrc, rfl⟩ := convert_sub_row_eq_some hconv
        constructor
        · intro hk
          have hk' : rc = "Ende" := hk
          exact absurd hk' (isResultCode_ne_ende (hcodes r hr sr hsr rc hrc))
        · intro hk
          exact absurd hk (by simp)
      · constructor <;> intro _ <;> rfl
    rw [hcongr]
    show List.count EbdGraphNode.endNode (getAllNodesAux t.rows false) = _
    rw [getAllNodesAux_count_ende t.rows false]
    simp
  · intro s hvalid
    constructor
    · intro hmem
      rw [hkeys] at hmem
      rcases List.mem_cons.mp hmem with rfl | hmem'
      · exact absurd hvalid (by decide)
      · exact hmemkey hmem' hvalid
    · exact hstepmem
  · intro s hs
    exact List.count_eq_one_of_mem (List.nodup_dedup _) (List.mem_dedup.mpr (hstepmem hs))

/-- The spec's own two row example: row "1" branches to row "2" or outcome
A01, row "2" branches to the terminal marker or outcome A02. -/
def tableTwoRows : EbdTable :=
  { metadata := ⟨"E_0003", "MaBiS", "7.24", "BIKO"⟩,
    rows := [{ step_number := "1", description := "Frage 1?",
               sub_rows := [⟨⟨true, some "2"⟩, none, none⟩,
                            ⟨⟨false, none⟩, some "A01", some "n1"⟩] },
             { step_number := "2", description := "Frage 2?",
               sub_rows := [⟨⟨true, some "Ende"⟩, none, none⟩,
                            ⟨⟨false, none⟩, some "A02", some "n2"⟩] }] }

/-- Witness for C2 on the concrete two row table. -/
theorem c2_node_set_start_ende_steps_witness :
    (nodeKeysOfTable tableTwoRows).count "Start" = 1 ∧
    ((nodeKeysOfTable tableTwoRows).count "Ende" = if rowsHaveEnde tableTwoRows.rows then 1 else 0) ∧
    ("2" ∈ nodeKeysOfTable tableTwoRows ↔ "2" ∈ tableTwoRows.rows.map EbdTableRow.step_number) ∧
    (nodeKeysOfTable tableTwoRows).dedup.count "2" = 1 := by
  have h := c2_node_set_start_ende_steps tableTwoRows (by decide) (by decide)
  exact ⟨h.1, h.2.1, h.2.2.1 "2" (by decide), h.2.2.2 "2" (by decide)⟩

/-! ## Claim C8 -/

/-- The character appears at index i, and at no later index below the bound. -/
def lastIdxBefore (cs : List Char) (ch : Char) (bound i : Nat) : Prop :=
  i < bound ∧ cs[i]? = some ch ∧ ∀ j, i < j → j < bound → cs[j]? ≠ some ch

/-- The character appears at no index below the bound. -/
def noIdxBefore (cs : List Char) (ch : Char) (bound : Nat) : Prop :=
  ∀ j, j < bound → cs[j]? ≠ some ch

theorem rfindAux_none_aux {c : Char} {l : List Char} (h : rfindAux c l = none) :
    ∀ j : Nat, l[j]? ≠ some c := by
  induction l with
  | nil => intro j; simp
  | cons d ds ih =>
    rw [rfindAux] at h
    cases hrec : rfindAux c ds with
    | some j => rw [hrec] at h; cases h
    | none =>
      rw [hrec] at h
      by_cases hd : d = c
      · rw [if_pos hd] at h; cases h
      · intro j
        cases j with
        | zero => simpa using hd
        | succ k =>
          rw [List.getElem?_cons_succ]
          exact ih hrec k

theorem rfindAux_eq_some {c : Char} {l : List Char} {i : Nat} (h : rfindAux c l = some i) :
    i < l.length ∧ l[i]? = some c ∧ ∀ j : Nat, i < j → l[j]? ≠ some c := by
  induction l generalizing i with
  | nil => cases h
  | cons d ds ih =>
    rw [rfindAux] at h
    cases hrec : rfindAux c ds with
    | some j =>
      rw [hrec] at h
      injection h with h'
      obtain ⟨hlen, hget, hlater⟩ := ih hrec
      subst h'
      refine ⟨by simpa using hlen, by simpa using hget, ?_⟩
      intro k hk
      cases k with
      | zero => omega
      | succ k' =>
        rw [List.getElem?_cons_succ]
        exact hlater k' (by omega)
    | none =>
      rw [hrec] at h
      by_cases hd : d = c
      · rw [if_pos hd] at h
        injection h with h'
        subst h'
        refine ⟨by simp, by simpa using hd, ?_⟩
        intro k hk
        cases k with
        | zero => omega
        | succ k' =>
          rw [List.getElem?_cons_succ]
          exact rfindAux_none_aux hrec k'
      · rw [if_neg hd] at h
        cases h

theorem rfindChar_some {cs : List Char} {c : Char} {stop i : Nat}
    (h : rfindChar cs c stop = some i) : lastIdxBefore cs c stop i := by
  obtain ⟨hlen, hget, hlater⟩ := rfindAux_eq_some h
  rw [List.length_take] at hlen
  have histop : i < stop := lt_of_lt_of_le hlen inf_le_left
  have higet : cs[i]? = some c := by
    rw [List.getElem?_take] at hget
    rwa [if_pos histop] at hget
  refine ⟨histop, higet, ?_⟩
  intro j hij hjstop
  have := hlater j hij
  rw [List.getElem?_take, if_pos hjstop] at this
  exact this

theorem rfindChar_none {cs : List Char} {c : Char} {stop : Nat}
    (h : rfindChar cs c stop = none) : noIdxBefore cs c stop := by
  intro j hj
  have := rfindAux_none_aux h j
  rw [List.getElem?_take, if_pos hj] at this
  exact this

theorem not_lastIdx_of_none {cs : List Char} {c : Char} {stop : Nat}
    (h : noIdxBefore cs c stop) : ∀ i, ¬ lastIdxBefore cs c stop i := by
  intro i ⟨histop, hget, _⟩
  exact h i histop hget

theorem pyLstrip_drop_ws_length {cs : List Char} {i : Nat} (hi : i < cs.length)
    (hws : isPySpace cs[i] = true) : (pyLstrip (cs.drop i)).length < cs.length - i := by
  rw [List.drop_eq_getElem_cons hi]
  unfold pyLstrip
  rw [List.dropWhile_cons, if_pos hws]
  have h1 : (List.dropWhile isPySpace (cs.drop (i + 1))).length ≤ (cs.drop (i + 1)).length :=
    (List.dropWhile_sublist isPySpace).length_le
  rw [List.length_drop] at h1
  omega

theorem splitLoopBody_shrinks (cs : List Char) (m : Nat) (hm : 0 < m)
    (hlen : m < cs.length) : (splitLoopBody cs m).2.length < cs.length := by
  unfold splitLoopBody
  cases hnl : rfindChar cs '\n' (3 * m / 2) with
  | some i =>
    obtain ⟨_, hget, _⟩ := rfindChar_some hnl
    have hi : i < cs.length := by
      by_contra hge
      rw [List.getElem?_eq_none (by omega)] at hget
      cases hget
    have hgete : cs[i] = '\n' := by
      rw [List.getElem?_eq_getElem hi] at hget
      injection hget
    have := pyLstrip_drop_ws_length hi (by rw [hgete]; rfl)
    simp only []
    omega
  | none =>
    cases hsp : rfindChar cs ' ' m with
    | some i =>
      obtain ⟨histop, hget, _⟩ := rfindChar_some hsp
      have hi : i < cs.length := by omega
      have hgete : cs[i] = ' ' := by
        rw [List.getElem?_eq_getElem hi] at hget
        injection hget
      have := pyLstrip_drop_ws_length hi (by rw [hgete]; rfl)
      simp only []
      omega
    | none =>
      simp only []
      have h1 : (pyLstrip (cs.drop m)).length ≤ (cs.drop m).length :=
        (List.dropWhile_sublist isPySpace).length_le
      rw [List.length_drop] at h1
      omega

theorem splitLoop_fuel_eq : ∀ (n : Nat) (cs : List Char), cs.length ≤ n →
    ∀ (fuel₁ fuel₂ m : Nat), 0 < m → cs.length < fuel₁ → cs.length < fuel₂ →
    splitLoop fuel₁ cs m = splitLoop fuel₂ cs m := by
  intro n
  induction n with
  | zero =>
    intro cs hcs fuel₁ fuel₂ m hm h1 h2
    have hnil : cs = [] := List.eq_nil_of_length_eq_zero (by omega)
    subst hnil
    cases fuel₁ with
    | zero => omega
    | succ f1 =>
      cases fuel₂ with
      | zero => omega
      | succ f2 =>
        rw [splitLoop, splitLoop]
        have hcond : ¬ (m < ([] : List Char).length) := by simp
        rw [if_neg hcond, if_neg hcond]
  | succ n ih =>
    intro cs hcs fuel₁ fuel₂ m hm h1 h2
    cases fuel₁ with
    | zero => omega
    | succ f1 =>
      cases fuel₂ with
      | zero => omega
      | succ f2 =>
        rw [splitLoop, splitLoop]
        by_cases hlen : m < cs.length
        · rw [if_pos hlen, if_pos hlen]
          have hshrink := splitLoopBody_shrinks cs m hm hlen
          have := ih (splitLoopBody cs m).2 (by omega) f1 f2 m hm (by omega) (by omega)
          rw [this]
        · rw [if_neg hlen, if_neg hlen]

theorem _split_string_step (cs : List Char) (m : Nat) (hm : 0 < m) (hlen : m < cs.length) :
    _split_string cs m =
      (splitLoopBody cs m).1 :: _split_string (splitLoopBody cs m).2 m := by
  show splitLoop (cs.length + 1) cs m = _
  rw [splitLoop, if_pos hlen]
  have hshrink := splitLoopBody_shrinks cs m hm hlen
  rw [splitLoop_fuel_eq (splitLoopBody cs m).2.length (splitLoopBody cs m).2 le_rfl
    cs.length ((splitLoopBody cs m).2.length + 1) m hm (by omega) (by omega)]
  rfl

/-- Claim C8: a string longer than the wrap budget m is split off once and
the loop continues on the remainder; the split prefers the last existing
line break below 1.5 * m, else the last space below m (so the cut happens at
a space, never inside a word), and only when neither exists does it cut hard
at exactly m. -/
theorem c8_split_prefers_break_then_space_then_hard_cut (cs : List Char) (m : Nat)
    (hm : 0 < m) (hlen : m < cs.length) :
    (_split_string cs m =
      (splitLoopBody cs m).1 :: _split_string (splitLoopBody cs m).2 m) ∧
    ((∃ i, lastIdxBefore cs '\n' (3 * m / 2) i) →
      ∃ i, lastIdxBefore cs '\n' (3 * m / 2) i ∧
        splitLoopBody cs m =
          ((pyRstrip (cs.take i)).filter (fun c => c ≠ '\n'), pyLstrip (cs.drop i))) ∧
    (noIdxBefore cs '\n' (3 * m / 2) → (∃ i, lastIdxBefore cs ' ' m i) →
      ∃ i, lastIdxBefore cs ' ' m i ∧ cs[i]? = some ' ' ∧
        splitLoopBody cs m = (pyRstrip (cs.take i), pyLstrip (cs.drop i))) ∧
    (noIdxBefore cs '\n' (3 * m / 2) → noIdxBefore cs ' ' m →
      splitLoopBody cs m = (pyRstrip (cs.take m), pyLstrip (cs.drop m))) := by
  refine ⟨_split_string_step cs m hm hlen, ?_, ?_, ?_⟩
  · intro ⟨i, hi⟩
    cases hnl : rfindChar cs '\n' (3 * m / 2) with
    | some i' =>
      refine ⟨i', rfindChar_some hnl, ?_⟩
      unfold splitLoopBody
      rw [hnl]
      rfl
    | none => exact absurd hi (not_lastIdx_of_none (rfindChar_none hnl) i)
  · intro hno ⟨i, hi⟩
    cases hnl : rfindChar cs '\n' (3 * m / 2) with
    | some i' => exact absurd (rfindChar_some hnl) (not_lastIdx_of_none hno i')
    | none =>
      cases hsp : rfindChar cs ' ' m with
      | some i' =>
        refine ⟨i', rfindChar_some hsp, (rfindChar_some hsp).2.1, ?_⟩
        unfold splitLoopBody
        rw [hnl, hsp]
        rfl
      | none => exact absurd hi (not_lastIdx_of_none (rfindChar_none hsp) i)
  · intro hno hnosp
    cases hnl : rfindChar cs '\n' (3 * m / 2) with
    | some i' => exact absurd (rfindChar_some hnl) (not_lastIdx_of_none hno i')
    | none =>
      cases hsp : rfindChar cs ' ' m with
      | some i' => exact absurd (rfindChar_some hsp) (not_lastIdx_of_none hnosp i')
      | none =>
        unfold splitLoopBody
        rw [hnl, hsp]
        rfl

/-- Witness for C8 on "hello world foo" with budget 8: the string has no
line break but spaces before the budget, and indeed never splits inside a
word. -/
theorem c8_split_witness :
    ((_split_string "hello world foo".data 8 =
      (splitLoopBody "hello world foo".data 8).1 ::
        _split_string (splitLoopBody "hello world foo".data 8).2 8) ∧
    ((∃ i, lastIdxBefore "hello world foo".data '\n' (3 * 8 / 2) i) →
      ∃ i, lastIdxBefore "hello world foo".data '\n' (3 * 8 / 2) i ∧
        splitLoopBody "hello world foo".data 8 =
          ((pyRstrip ("hello world foo".data.take i)).filter (fun c => c ≠ '\n'),
            pyLstrip ("hello world foo".data.drop i))) ∧
    (noIdxBefore "hello world foo".data '\n' (3 * 8 / 2) →
      (∃ i, lastIdxBefore "hello world foo".data ' ' 8 i) →
      ∃ i, lastIdxBefore "hello world foo".data ' ' 8 i ∧
        "hello world foo".data[i]? = some ' ' ∧
        splitLoopBody "hello world foo".data 8 =
          (pyRstrip ("hello world foo".data.take i),
            pyLstrip ("hello world foo".data.drop i))) ∧
    (noIdxBefore "hello world foo".data '\n' (3 * 8 / 2) →
      noIdxBefore "hello world foo".data ' ' 8 →
      splitLoopBody "hello world foo".data 8 =
        (pyRstrip ("hello world foo".data.take 8),
          pyLstrip ("hello world foo".data.drop 8)))) ∧
    _split_string "hello world foo".data 8 =
      ["hello".data, "world".data, "foo".data] :=
  ⟨c8_split_prefers_break_then_space_then_hard_cut "hello world foo".data 8
    (by decide) (by decide), by decide⟩

/-! ## Claims C9 and C10: instruction range machinery -/

/-- The sorted(instructions, key=int(first_step_number_affected)) call.
Python's sort is stable, and so is insertion sort. -/
def sortedInsts (instructions : List MultiStepInstruction) : List MultiStepInstruction :=
  instructions.insertionSort msiLe

theorem findEndStep_fold_none {start next_start : Nat} :
    ∀ (steps : List String) (acc : Option String),
      steps.foldl (findEndStepGo start next_start) acc = none →
      acc = none ∧ ∀ s ∈ steps, ¬ stepQualifies start next_start s := by
  intro steps
  induction steps with
  | nil => intro acc h; exact ⟨h, by simp⟩
  | cons s rest ih =>
    intro acc h
    rw [List.foldl_cons] at h
    obtain ⟨hgo, hrest⟩ := ih _ h
    have hs : ¬ stepQualifies start next_start s := by
      intro hq
      unfold findEndStepGo at hgo
      rw [if_pos hq] at hgo
      cases acc <;> simp at hgo
      split at hgo <;> cases hgo
    have hacc : acc = none := by
      unfold findEndStepGo at hgo
      rw [if_neg hs] at hgo
      exact hgo
    refine ⟨hacc, ?_⟩
    intro s' hs'
    rcases List.mem_cons.mp hs' with rfl | hmem
    · exact hs
    · exact hrest s' hmem

theorem findEndStepGo_qual_some {start next_start : Nat} {acc : Option String} {s : String}
    (hq : stepQualifies start next_start s) :
    ∃ e, findEndStepGo start next_start acc s = some e ∧ pyInt s ≤ pyInt e ∧
      (e = s ∨ acc = some e) := by
  unfold findEndStepGo
  rw [if_pos hq]
  cases acc with
  | none => exact ⟨s, rfl, le_rfl, Or.inl rfl⟩
  | some e0 =>
    dsimp only
    by_cases hlt : pyInt e0 < pyInt s
    · rw [if_pos hlt]
      exact ⟨s, rfl, le_rfl, Or.inl rfl⟩
    · rw [if_neg hlt]
      exact ⟨e0, rfl, by omega, Or.inr rfl⟩

theorem findEndStepGo_acc_le {start next_start : Nat} {acc : Option String} {s : String}
    {e0 : String} (hacc : acc = some e0) :
    ∃ e, findEndStepGo start next_start acc s = some e ∧ pyInt e0 ≤ pyInt e ∧
      (e = s ∨ e = e0) := by
  subst hacc
  unfold findEndStepGo
  by_cases hq : stepQualifies start next_start s
  · rw [if_pos hq]
    dsimp only
    by_cases hlt : pyInt e0 < pyInt s
    · rw [if_pos hlt]
      exact ⟨s, rfl, by omega, Or.inl rfl⟩
    · rw [if_neg hlt]
      exact ⟨e0, rfl, le_rfl, Or.inr rfl⟩
  · rw [if_neg hq]
    exact ⟨e0, rfl, le_rfl, Or.inr rfl⟩

theorem findEndStep_fold_some {start next_start : Nat} :
    ∀ (steps : List String) (acc : Option String) (e : String),
      steps.foldl (findEndStepGo start next_start) acc = some e →
      ((e ∈ steps ∧ stepQualifies start next_start e) ∨ acc = some e) ∧
      (∀ s ∈ steps, stepQualifies start next_start s → pyInt s ≤ pyInt e) ∧
      (∀ e0, acc = some e0 → pyInt e0 ≤ pyInt e) := by
  intro steps
  induction steps with
  | nil =>
    intro acc e h
    refine ⟨Or.inr h, by simp, ?_⟩
    intro e0 he0
    rw [he0] at h
    injection h with h'
    rw [h']
  | cons s rest ih =>
    intro acc e h
    rw [List.foldl_cons] at h
    obtain ⟨hsrc, hmax, haccle⟩ := ih _ _ h
    have hgo_cases : ((findEndStepGo start next_start acc s = some s ∧
          stepQualifies start next_start s) ∨
        findEndStepGo start next_start acc s = acc) := by
      unfold findEndStepGo
      by_cases hq : stepQualifies start next_start s
      · rw [if_pos hq]
        cases acc with
        | none => exact Or.inl ⟨rfl, hq⟩
        | some e0 =>
          dsimp only
          by_cases hlt : pyInt e0 < pyInt s
          · rw [if_pos hlt]; exact Or.inl ⟨rfl, hq⟩
          · rw [if_neg hlt]; exact Or.inr rfl
      · rw [if_neg hq]; exact Or.inr rfl
    refine ⟨?_, ?_, ?_⟩
    · rcases hsrc with ⟨hmem, hqual⟩ | hgo
      · exact Or.inl ⟨List.mem_cons_of_mem _ hmem, hqual⟩
      · rcases hgo_cases with ⟨heq, hq⟩ | heq
        · rw [heq] at hgo
          injection hgo with h'
          subst h'
          exact Or.inl ⟨List.mem_cons_self _ _, hq⟩
        · rw [heq] at hgo
          exact Or.inr hgo
    · intro s' hs' hq'
      rcases List.mem_cons.mp hs' with rfl | hmem
      · obtain ⟨e1, he1, hle1, _⟩ := @findEndStepGo_qual_some start next_start acc _ hq'
        have := haccle e1 he1
        omega
      · exact hmax s' hmem hq'
    · intro e0 he0
      obtain ⟨e1, he1, hle1, _⟩ := @findEndStepGo_acc_le start next_start acc s _ he0
      have := haccle e1 he1
      omega

theorem findEndStep_none {start next_start : Nat} {steps : List String}
    (h : findEndStep start next_start steps = none) :
    ∀ s ∈ steps, ¬ stepQualifies start next_start s :=
  (findEndStep_fold_none steps none h).2

theorem findEndStep_some {start next_start : Nat} {steps : List String} {e : String}
    (h : findEndStep start next_start steps = some e) :
    e ∈ steps ∧ stepQualifies start next_start e ∧
      ∀ s ∈ steps, stepQualifies start next_start s → pyInt s ≤ pyInt e := by
  obtain ⟨hsrc, hmax, _⟩ := findEndStep_fold_some steps none e h
  rcases hsrc with ⟨hmem, hq⟩ | hacc
  · exact ⟨hmem, hq, hmax⟩
  · cases hacc

theorem findEndStep_isSome {start next_start : Nat} {steps : List String} {s : String}
    (hs : s ∈ steps) (hq : stepQualifies start next_start s) :
    ∃ e, findEndStep start next_start steps = some e := by
  cases h : findEndStep start next_start steps with
  | none => exact absurd hq (findEndStep_none h s hs)
  | some e => exact ⟨e, rfl⟩

theorem rangesAux_length (steps : List String) :
    ∀ l : List MultiStepInstruction, (rangesAux steps l).length = l.length := by
  intro l
  induction l with
  | nil => rfl
  | cons x rest ih =>
    cases rest with
    | nil => rfl
    | cons y rest' =>
      have hunfold : rangesAux steps (x :: y :: rest') =
          (x, x.first_step_number_affected,
            findEndStep (pyInt x.first_step_number_affected)
              (pyInt y.first_step_number_affected) steps) :: rangesAux steps (y :: rest') := rfl
      rw [hunfold]
      simp only [List.length_cons]
      rw [ih]
      rfl

theorem rangesAux_map_fst (steps : List String) :
    ∀ l : List MultiStepInstruction, (rangesAux steps l).map (·.1) = l := by
  intro l
  induction l with
  | nil => rfl
  | cons x rest ih =>
    cases rest with
    | nil => rfl
    | cons y rest' =>
      have hunfold : rangesAux steps (x :: y :: rest') =
          (x, x.first_step_number_affected,
            findEndStep (pyInt x.first_step_number_affected)
              (pyInt y.first_step_number_affected) steps) :: rangesAux steps (y :: rest') := rfl
      rw [hunfold]
      simp only [List.map_cons]
      rw [ih]

theorem rangesAux_getElem? (steps : List String) :
    ∀ (l : List MultiStepInstruction) (i : Nat),
      (rangesAux steps l)[i]? =
        (l[i]?).map (fun inst =>
          (inst, inst.first_step_number_affected,
            match l[i + 1]? with
            | some next =>
              findEndStep (pyInt inst.first_step_number_affected)
                (pyInt next.first_step_number_affected) steps
            | none => none)) := by
  intro l
  induction l with
  | nil => intro i; simp [rangesAux]
  | cons x rest ih =>
    intro i
    cases rest with
    | nil =>
      cases i with
      | zero => simp [rangesAux]
      | succ i' => simp [rangesAux]
    | cons y rest' =>
      have hunfold : rangesAux steps (x :: y :: rest') =
          (x, x.first_step_number_affected,
            findEndStep (pyInt x.first_step_number_affected)
              (pyInt y.first_step_number_affected) steps) :: rangesAux steps (y :: rest') := rfl
      cases i with
      | zero =>
        rw [hunfold]
        simp
      | succ i' =>
        rw [hunfold]
        simp only [List.getElem?_cons_succ]
        have h := ih i'
        simp only [List.getElem?_cons_succ] at h
        exact h

theorem mem_nodes_in_step_range {nodes : List (String × EbdGraphNode)} {start_step : String}
    {end_step : Option String} {key : String} :
    key ∈ _get_nodes_in_step_range nodes start_step end_step ↔
      ∃ entry ∈ nodes, entry.1 = key ∧ ∃ s, _get_step_number_from_node entry.2 = some s ∧
        pyInt start_step ≤ pyInt s ∧ ∀ e ∈ endInt end_step, pyInt s ≤ e := by
  unfold _get_nodes_in_step_range
  rw [List.mem_filterMap]
  constructor
  · rintro ⟨entry, hmem, hf⟩
    cases hstep : _get_step_number_from_node entry.2 with
    | none => rw [hstep] at hf; cases hf
    | some s =>
      rw [hstep] at hf
      dsimp only at hf
      by_cases hcond : pyInt start_step ≤ pyInt s ∧ ∀ e ∈ endInt end_step, pyInt s ≤ e
      · rw [if_pos hcond] at hf
        injection hf with hf'
        exact ⟨entry, hmem, hf', s, hstep, hcond⟩
      · rw [if_neg hcond] at hf
        cases hf
  · rintro ⟨entry, hmem, rfl, s, hstep, h1, h2⟩
    refine ⟨entry, hmem, ?_⟩
    rw [hstep]
    dsimp only
    rw [if_pos ⟨h1, h2⟩]

theorem filterMap_key_sublist (f : String × EbdGraphNode → Option String)
    (hf : ∀ e, f e = none ∨ f e = some e.1) :
    ∀ nodes : List (String × EbdGraphNode),
      (nodes.filterMap f).Sublist (nodes.map (·.1)) := by
  intro nodes
  induction nodes with
  | nil => simp
  | cons entry rest ih =>
    rw [List.filterMap_cons, List.map_cons]
    rcases hf entry with h | h
    · rw [h]
      exact ih.cons _
    · rw [h]
      exact ih.cons₂ _

theorem nodes_in_step_range_sublist (nodes : List (String × EbdGraphNode))
    (start_step : String) (end_step : Option String) :
    (_get_nodes_in_step_range nodes start_step end_step).Sublist (nodes.map (·.1)) := by
  apply filterMap_key_sublist
  intro e
  cases hstep : _get_step_number_from_node e.2 with
  | none => exact Or.inl rfl
  | some s =>
    dsimp only
    by_cases hcond : pyInt start_step ≤ pyInt s ∧ ∀ x ∈ endInt end_step, pyInt s ≤ x
    · right
      rw [if_pos hcond]
    · left
      rw [if_neg hcond]

theorem nodes_in_step_range_nodup {nodes : List (String × EbdGraphNode)}
    (hnodup : (nodes.map (·.1)).Nodup) (start_step : String) (end_step : Option String) :
    (_get_nodes_in_step_range nodes start_step end_step).Nodup :=
  hnodup.sublist (nodes_in_step_range_sublist nodes start_step end_step)

instance : IsTotal MultiStepInstruction msiLe := ⟨fun _ _ => Nat.le_total _ _⟩

instance : IsTrans MultiStepInstruction msiLe := ⟨fun _ _ _ hab hbc => Nat.le_trans hab hbc⟩

theorem strToNat_empty_not_isSome : (strToNat? "").isSome = false := by decide

theorem step_mem_of_all {steps : List String} {payload : EbdGraphNode} {s : String}
    (h : (_get_step_number_from_node payload).all (fun s => steps.contains s) = true)
    (hstep : _get_step_number_from_node payload = some s) : s ∈ steps := by
  rw [hstep] at h
  simpa using h

theorem mem_range_nonlast_iff {steps : List String} {nodes : List (String × EbdGraphNode)}
    (hkeysnodup : (nodes.map (·.1)).Nodup)
    (hdigits : ∀ s ∈ steps, (strToNat? s).isSome = true)
    (start_str : String) (next : Nat)
    (hnonempty : ∃ s0 ∈ steps, stepQualifies (pyInt start_str) next s0)
    {key : String} {payload : EbdGraphNode} {s : String}
    (hmem : (key, payload) ∈ nodes) (hstep : _get_step_number_from_node payload = some s)
    (hsmem : s ∈ steps) :
    key ∈ _get_nodes_in_step_range nodes start_str
        (findEndStep (pyInt start_str) next steps) ↔
      pyInt start_str ≤ pyInt s ∧ pyInt s < next := by
  obtain ⟨s0, hs0, hq0⟩ := hnonempty
  obtain ⟨e, he⟩ := findEndStep_isSome hs0 hq0
  rw [he]
  obtain ⟨hemem, heq, hemax⟩ := findEndStep_some he
  have hene : e ≠ "" := by
    intro h
    subst h
    have h0 := strToNat_empty_not_isSome
    rw [hdigits "" hemem] at h0
    cases h0
  have hendInt : endInt (some e) = some (pyInt e) := by
    unfold endInt
    dsimp only
    rw [if_neg hene]
  constructor
  · intro hkey
    obtain ⟨entry, hentrymem, hkeyeq, s', hs', h1, h2⟩ := mem_nodes_in_step_range.mp hkey
    have hentryeq : entry = (key, payload) :=
      List.inj_on_of_nodup_map hkeysnodup hentrymem hmem (by rw [hkeyeq])
    rw [hentryeq] at hs'
    rw [hstep] at hs'
    injection hs' with hs''
    subst hs''
    have h2e : pyInt s ≤ pyInt e := h2 (pyInt e) (by rw [hendInt]; rfl)
    obtain ⟨heq1, heq2⟩ := heq
    exact ⟨h1, by omega⟩
  · rintro ⟨h1, h2⟩
    have hse : pyInt s ≤ pyInt e := hemax s hsmem ⟨h1, h2⟩
    refine mem_nodes_in_step_range.mpr ⟨(key, payload), hmem, rfl, s, hstep, h1, ?_⟩
    intro e' he'
    rw [hendInt] at he'
    have : e' = pyInt e := by simpa using he'.symm
    omega

theorem mem_range_last_iff {nodes : List (String × EbdGraphNode)}
    (hkeysnodup : (nodes.map (·.1)).Nodup)
    (start_str : String)
    {key : String} {payload : EbdGraphNode} {s : String}
    (hmem : (key, payload) ∈ nodes) (hstep : _get_step_number_from_node payload = some s) :
    key ∈ _get_nodes_in_step_range nodes start_str none ↔ pyInt start_str ≤ pyInt s := by
  constructor
  · intro hkey
    obtain ⟨entry, hentrymem, hkeyeq, s', hs', h1, _⟩ := mem_nodes_in_step_range.mp hkey
    have hentryeq : entry = (key, payload) :=
      List.inj_on_of_nodup_map hkeysnodup hentrymem hmem (by rw [hkeyeq])
    rw [hentryeq] at hs'
    rw [hstep] at hs'
    injection hs' with hs''
    subst hs''
    exact h1
  · intro h1
    refine mem_nodes_in_step_range.mpr ⟨(key, payload), hmem, rfl, s, hstep, h1, ?_⟩
    intro e' he'
    cases he'

/-- Claim C9 (amended with the proviso that each non last instruction's half
open interval contains at least one step of the graph): the range
computation sorts the instructions by first affected step number, produces
exactly one grouping per instruction, and a node's key belongs to a non
last instruction's grouping exactly when its step number lies in [that
instruction's first affected step, the next instruction's first affected
step), the last grouping being open ended. -/
theorem c9_ranges_sorted_and_half_open (insts : List MultiStepInstruction)
    (steps : List String) (nodes : List (String × EbdGraphNode))
    (hne : insts ≠ [])
    (hkeysnodup : (nodes.map (·.1)).Nodup)
    (hnodesteps : ∀ entry ∈ nodes,
      (_get_step_number_from_node entry.2).all (fun s => steps.contains s) = true)
    (hdigits : ∀ s ∈ steps, (strToNat? s).isSome = true)
    (hchain : List.Chain' (fun a b => ∃ s ∈ steps,
        stepQualifies (pyInt a.first_step_number_affected) (pyInt b.first_step_number_affected) s)
      (insts.insertionSort msiLe)) :
    ((_compute_instruction_ranges insts steps).map (·.1) = insts.insertionSort msiLe) ∧
    (_compute_instruction_ranges insts steps).length = insts.length ∧
    List.Pairwise msiLe ((_compute_instruction_ranges insts steps).map (·.1)) ∧
    (∀ (i : Nat) (inst next : MultiStepInstruction)
        (r : MultiStepInstruction × String × Option String),
      (insts.insertionSort msiLe)[i]? = some inst →
      (insts.insertionSort msiLe)[i + 1]? = some next →
      (_compute_instruction_ranges insts steps)[i]? = some r →
      ∀ (key : String) (payload : EbdGraphNode) (s : String),
        (key, payload) ∈ nodes → _get_step_number_from_node payload = some s →
        (key ∈ _get_nodes_in_step_range nodes r.2.1 r.2.2 ↔
          pyInt inst.first_step_number_affected ≤ pyInt s ∧
          pyInt s < pyInt next.first_step_number_affected)) ∧
    (∀ (i : Nat) (inst : MultiStepInstruction)
        (r : MultiStepInstruction × String × Option String),
      (insts.insertionSort msiLe)[i]? = some inst →
      (insts.insertionSort msiLe)[i + 1]? = none →
      (_compute_instruction_ranges insts steps)[i]? = some r →
      ∀ (key : String) (payload : EbdGraphNode) (s : String),
        (key, payload) ∈ nodes → _get_step_number_from_node payload = some s →
        (key ∈ _get_nodes_in_step_range nodes r.2.1 r.2.2 ↔
          pyInt inst.first_step_number_affected ≤ pyInt s)) := by
  have hcompute : _compute_instruction_ranges insts steps =
      rangesAux steps (insts.insertionSort msiLe) := by
    unfold _compute_instruction_ranges
    rw [if_neg (by simpa using hne)]
  have hsortlen : (insts.insertionSort msiLe).length = insts.length :=
    (List.perm_insertionSort msiLe insts).length_eq
  refine ⟨?_, ?_, ?_, ?_, ?_⟩
  · rw [hcompute, rangesAux_map_fst]
  · rw [hcompute, rangesAux_length, hsortlen]
  · rw [hcompute, rangesAux_map_fst]
    exact List.sorted_insertionSort msiLe insts
  · intro i inst next r hgi hgi1 hgr key payload s hmem hstep
    rw [hcompute, rangesAux_getElem?, hgi, hgi1] at hgr
    simp only [Option.map_some'] at hgr
    injection hgr with hgr'
    subst hgr'
    have hi1 : i + 1 < (insts.insertionSort msiLe).length := by
      rcases List.getElem?_eq_some_iff.mp hgi1 with ⟨h, _⟩
      exact h
    have hchainI := List.chain'_iff_get.mp hchain i (by omega)
    have hgeti : (insts.insertionSort msiLe).get ⟨i, by omega⟩ = inst := by
      rcases List.getElem?_eq_some_iff.mp hgi with ⟨h, heq⟩
      exact heq
    have hgeti1 : (insts.insertionSort msiLe).get ⟨i + 1, by omega⟩ = next := by
      rcases List.getElem?_eq_some_iff.mp hgi1 with ⟨h, heq⟩
      exact heq
    rw [hgeti, hgeti1] at hchainI
    exact mem_range_nonlast_iff hkeysnodup hdigits
      inst.first_step_number_affected (pyInt next.first_step_number_affected)
      hchainI hmem hstep (step_mem_of_all (hnodesteps (key, payload) hmem) hstep)
  · intro i inst r hgi hgi1 hgr key payload s hmem hstep
    rw [hcompute, rangesAux_getElem?, hgi, hgi1] at hgr
    simp only [Option.map_some'] at hgr
    injection hgr with hgr'
    subst hgr'
    exact mem_range_last_iff hkeysnodup inst.first_step_number_affected hmem hstep

/-- The four instructions of the spec's example, starting at steps 100, 205,
305 and 400. -/
def c9Insts4 : List MultiStepInstruction :=
  [⟨"I1", "100"⟩, ⟨"I2", "205"⟩, ⟨"I3", "305"⟩, ⟨"I4", "400"⟩]

def c9Steps4 : List String := ["100", "105", "205", "210", "305", "310", "400", "410"]

def c9Nodes4 : List (String × EbdGraphNode) :=
  [("100", .decisionNode "100" "q"), ("105", .decisionNode "105" "q"),
   ("205", .decisionNode "205" "q"), ("210", .decisionNode "210" "q"),
   ("305", .decisionNode "305" "q"), ("310", .decisionNode "310" "q"),
   ("400", .decisionNode "400" "q"), ("410", .decisionNode "410" "q")]

/-- Witness for C9: instructions at [100, 205, 305, 400] give exactly 4
groupings in sorted order; node "105" belongs to the first grouping (its
step lies in [100, 205)) and node "410" to the open ended last one. -/
theorem c9_ranges_sorted_and_half_open_witness :
    ((_compute_instruction_ranges c9Insts4 c9Steps4).map (·.1) =
      c9Insts4.insertionSort msiLe) ∧
    (_compute_instruction_ranges c9Insts4 c9Steps4).length = 4 ∧
    ("105" ∈ _get_nodes_in_step_range c9Nodes4 "100" (some "105") ↔
      pyInt "100" ≤ pyInt "105" ∧ pyInt "105" < pyInt "205") ∧
    ("410" ∈ _get_nodes_in_step_range c9Nodes4 "400" none ↔ pyInt "400" ≤ pyInt "410") := by
  have hchain : List.Chain' (fun a b => ∃ s ∈ c9Steps4,
      stepQualifies (pyInt a.first_step_number_affected) (pyInt b.first_step_number_affected) s)
      (c9Insts4.insertionSort msiLe) := by
    rw [show c9Insts4.insertionSort msiLe = c9Insts4 from by decide]
    exact List.chain'_cons.mpr ⟨⟨"100", by decide, by decide⟩,
      List.chain'_cons.mpr ⟨⟨"205", by decide, by decide⟩,
        List.chain'_cons.mpr ⟨⟨"305", by decide, by decide⟩, List.chain'_singleton _⟩⟩⟩
  have h := c9_ranges_sorted_and_half_open c9Insts4 c9Steps4 c9Nodes4
    (by decide) (by decide) (by decide) (by decide) hchain
  refine ⟨h.1, by decide, ?_, ?_⟩
  · exact h.2.2.2.1 0 ⟨"I1", "100"⟩ ⟨"I2", "205"⟩ (⟨"I1", "100"⟩, "100", some "105")
      (by decide) (by decide) (by decide) "105" (.decisionNode "105" "q") "105"
      (by decide) (by decide)
  · exact h.2.2.2.2 3 ⟨"I4", "400"⟩ (⟨"I4", "400"⟩, "400", none)
      (by decide) (by decide) (by decide) "410" (.decisionNode "410" "q") "410"
      (by decide) (by decide)

/-! ## Claim C10 -/

theorem clusterDeclCount_append (l1 l2 : List DotPart) (key : String) :
    clusterDeclCount (l1 ++ l2) key = clusterDeclCount l1 key + clusterDeclCount l2 key := by
  unfold clusterDeclCount
  rw [List.map_append, List.sum_append]

theorem topDeclCount_append (l1 l2 : List DotPart) (key : String) :
    topDeclCount (l1 ++ l2) key = topDeclCount l1 key + topDeclCount l2 key := by
  unfold topDeclCount
  rw [List.map_append, List.sum_append]

theorem clusterDeclCount_clusters {α : Type} (l : List α) (f : α → String)
    (members : α → List String) (key : String) :
    clusterDeclCount (l.map (fun a => DotPart.cluster (f a) (members a))) key =
      (l.map (fun a => (members a).count key)).sum := by
  unfold clusterDeclCount
  rw [List.map_map]
  rfl

theorem topDeclCount_clusters {α : Type} (l : List α) (f : α → String)
    (members : α → List String) (key : String) :
    topDeclCount (l.map (fun a => DotPart.cluster (f a) (members a))) key = 0 := by
  unfold topDeclCount
  rw [List.map_map]
  induction l with
  | nil => rfl
  | cons a rest ih => simpa using ih

theorem clusterDeclCount_nodeDecls (l : List (String × EbdGraphNode)) (key : String) :
    clusterDeclCount (l.map (fun entry => DotPart.nodeDecl entry.1)) key = 0 := by
  unfold clusterDeclCount
  rw [List.map_map]
  induction l with
  | nil => rfl
  | cons a rest ih => simpa using ih

theorem topDeclCount_nodeDecls (l : List (String × EbdGraphNode)) (key : String) :
    topDeclCount (l.map (fun entry => DotPart.nodeDecl entry.1)) key =
      (l.map (·.1)).count key := by
  unfold topDeclCount
  rw [List.map_map]
  induction l with
  | nil => rfl
  | cons a rest ih =>
    simp only [List.map_cons, List.sum_cons, ih, List.count_cons, Function.comp_apply]
    by_cases h : a.1 = key
    · rw [if_pos h, if_pos (by simpa using h)]
      omega
    · rw [if_neg h, if_neg (by simpa using h)]
      omega

theorem sum_count_disjoint {key : String} :
    ∀ (ls : List (List String)), (∀ l ∈ ls, l.Nodup) →
      List.Pairwise (fun l1 l2 => ¬(key ∈ l1 ∧ key ∈ l2)) ls →
      (ls.map (List.count key)).sum = if ∃ l ∈ ls, key ∈ l then 1 else 0 := by
  intro ls
  induction ls with
  | nil => intro _ _; simp
  | cons l rest ih =>
    intro hnodup hpw
    rw [List.map_cons, List.sum_cons]
    rcases List.pairwise_cons.mp hpw with ⟨hhead, htail⟩
    by_cases hkey : key ∈ l
    · rw [List.count_eq_one_of_mem (hnodup l (List.mem_cons_self _ _)) hkey]
      have hrest : (rest.map (List.count key)).sum = 0 := by
        rw [ih (fun l' hl' => hnodup l' (List.mem_cons_of_mem _ hl')) htail]
        rw [if_neg ?_]
        rintro ⟨l', hl', hkey'⟩
        exact hhead l' hl' ⟨hkey, hkey'⟩
      rw [hrest, if_pos ⟨l, List.mem_cons_self _ _, hkey⟩]
    · rw [List.count_eq_zero.mpr hkey]
      rw [ih (fun l' hl' => hnodup l' (List.mem_cons_of_mem _ hl')) htail]
      by_cases hex : ∃ l' ∈ rest, key ∈ l'
      · rw [if_pos hex, if_pos ?_]
        obtain ⟨l', hl', hk⟩ := hex
        exact ⟨l', List.mem_cons_of_mem _ hl', hk⟩
      · rw [if_neg hex, if_neg ?_]
        rintro ⟨l', hl', hk⟩
        rcases List.mem_cons.mp hl' with rfl | hl''
        · exact hkey hk
        · exact hex ⟨l', hl'', hk⟩

theorem key_in_range_step {g : REbdGraph} {key : String} {payload : EbdGraphNode}
    (hkeysnodup : (g.nodes.map (·.1)).Nodup)
    (hmem : (key, payload) ∈ g.nodes)
    {st : String} {en : Option String}
    (h : key ∈ _get_nodes_in_step_range g.nodes st en) :
    ∃ s, _get_step_number_from_node payload = some s ∧ pyInt st ≤ pyInt s ∧
      ∀ e ∈ endInt en, pyInt s ≤ e := by
  obtain ⟨entry, hentrymem, hkeyeq, s, hstep, h1, h2⟩ := mem_nodes_in_step_range.mp h
  have hentryeq : entry = (key, payload) :=
    List.inj_on_of_nodup_map hkeysnodup hentrymem hmem (by rw [hkeyeq])
  rw [hentryeq] at hstep
  exact ⟨s, hstep, h1, h2⟩

theorem starts_strict_mono {steps : List String} {l : List MultiStepInstruction}
    (hchain : List.Chain' (fun a b => ∃ s ∈ steps,
      stepQualifies (pyInt a.first_step_number_affected) (pyInt b.first_step_number_affected) s) l) :
    ∀ (i j : Nat) (hij : i < j) (hj : j < l.length),
      pyInt ((getElem l i (by omega)).first_step_number_affected) <
        pyInt ((getElem l j hj).first_step_number_affected) := by
  have hlt : List.Chain'
      (fun a b => pyInt a.first_step_number_affected < pyInt b.first_step_number_affected) l := by
    refine hchain.imp ?_
    rintro a b ⟨s, _, hq⟩
    obtain ⟨hq1, hq2⟩ := hq
    omega
  haveI : IsTrans MultiStepInstruction
      (fun a b => pyInt a.first_step_number_affected < pyInt b.first_step_number_affected) :=
    ⟨fun _ _ _ => Nat.lt_trans⟩
  have hpw := List.chain'_iff_pairwise.mp hlt
  intro i j hij hj
  exact List.pairwise_iff_getElem.mp hpw i j (by omega) hj hij

theorem graphRanges_eq (g : REbdGraph) (hne : ¬ g.multi_step_instructions.isEmpty) :
    graphRanges g =
      rangesAux (graphStepNumbers g) (g.multi_step_instructions.insertionSort msiLe) := by
  unfold graphRanges _compute_instruction_ranges
  rw [if_neg hne]

theorem graphRanges_key_disjoint (g : REbdGraph) {key : String} {payload : EbdGraphNode}
    (hkeysnodup : (g.nodes.map (·.1)).Nodup)
    (hdigits : ∀ s ∈ graphStepNumbers g, (strToNat? s).isSome = true)
    (hchain : List.Chain' (fun a b => ∃ s ∈ graphStepNumbers g,
        stepQualifies (pyInt a.first_step_number_affected) (pyInt b.first_step_number_affected) s)
      (g.multi_step_instructions.insertionSort msiLe))
    (hne : ¬ g.multi_step_instructions.isEmpty)
    (hmem : (key, payload) ∈ g.nodes) :
    List.Pairwise (fun r1 r2 =>
      ¬(key ∈ _get_nodes_in_step_range g.nodes r1.2.1 r1.2.2 ∧
        key ∈ _get_nodes_in_step_range g.nodes r2.2.1 r2.2.2)) (graphRanges g) := by
  have hranges := graphRanges_eq g hne
  have hlen : (graphRanges g).length =
      (g.multi_step_instructions.insertionSort msiLe).length := by
    rw [hranges, rangesAux_length]
  rw [List.pairwise_iff_getElem]
  intro i j hi hj hij
  rintro ⟨hki, hkj⟩
  have hsi : i < (g.multi_step_instructions.insertionSort msiLe).length := by omega
  have hsj : j < (g.multi_step_instructions.insertionSort msiLe).length := by omega
  have hsi1 : i + 1 < (g.multi_step_instructions.insertionSort msiLe).length := by omega
  have hdesci := rangesAux_getElem? (graphStepNumbers g)
    (g.multi_step_instructions.insertionSort msiLe) i
  rw [List.getElem?_eq_getElem hsi, List.getElem?_eq_getElem hsi1] at hdesci
  rw [← hranges, List.getElem?_eq_getElem hi] at hdesci
  simp only [Option.map_some'] at hdesci
  injection hdesci with hdesci'
  have hdescj := rangesAux_getElem? (graphStepNumbers g)
    (g.multi_step_instructions.insertionSort msiLe) j
  rw [List.getElem?_eq_getElem hsj] at hdescj
  rw [← hranges, List.getElem?_eq_getElem hj] at hdescj
  simp only [Option.map_some'] at hdescj
  injection hdescj with hdescj'
  -- range i: membership bounds the step from above by the end step
  rw [hdesci'] at hki
  rw [hdescj'] at hkj
  dsimp only at hki hkj
  obtain ⟨s, hstep, hi1, hi2⟩ := key_in_range_step hkeysnodup hmem hki
  obtain ⟨s', hstep', hj1, _⟩ := key_in_range_step hkeysnodup hmem hkj
  rw [hstep] at hstep'
  injection hstep' with hss
  subst hss
  -- the end step of range i exists because of the chain hypothesis
  have hchainI := List.chain'_iff_get.mp hchain i (by omega)
  obtain ⟨s0, hs0, hq0⟩ := hchainI
  have hq0' : stepQualifies
      (pyInt ((getElem (g.multi_step_instructions.insertionSort
        msiLe) i hsi).first_step_number_affected))
      (pyInt ((getElem (g.multi_step_instructions.insertionSort
        msiLe) (i + 1) hsi1).first_step_number_affected)) s0 := hq0
  obtain ⟨e, he⟩ := findEndStep_isSome hs0 hq0'
  rw [he] at hi2
  obtain ⟨hemem, heq, _⟩ := findEndStep_some he
  have hene : e ≠ "" := by
    intro h0
    subst h0
    have h1 := strToNat_empty_not_isSome
    rw [hdigits "" hemem] at h1
    cases h1
  have hendInt : endInt (some e) = some (pyInt e) := by
    unfold endInt
    dsimp only
    rw [if_neg hene]
  have hse : pyInt s ≤ pyInt e := hi2 (pyInt e) (by rw [hendInt]; rfl)
  obtain ⟨_, heq2⟩ := heq
  -- start of range j dominates start of range i's successor
  have hstartle : pyInt ((getElem (g.multi_step_instructions.insertionSort
        msiLe) (i + 1) hsi1).first_step_number_affected) ≤
      pyInt ((getElem (g.multi_step_instructions.insertionSort
        msiLe) j hsj).first_step_number_affected) := by
    rcases Nat.lt_or_ge (i + 1) j with hlt | hge
    · exact Nat.le_of_lt (starts_strict_mono hchain (i + 1) j hlt hsj)
    · have : i + 1 = j := by omega
      subst this
      exact le_rfl
  omega

theorem mem_nodesInClusters {g : REbdGraph} {key : String} :
    key ∈ nodesInClusters g ↔
      ∃ r ∈ graphRanges g, key ∈ _get_nodes_in_step_range g.nodes r.2.1 r.2.2 := by
  unfold nodesInClusters
  rw [List.mem_flatMap]

/-- Claim C10: when every non last instruction's half open step interval
contains the step number of at least one node, the dot node declaration
output declares every graph node exactly once — inside exactly one cluster
and not at top level when its step falls into some instruction's range, and
exactly once at top level otherwise. -/
theorem c10_every_node_declared_once (g : REbdGraph)
    (hkeysnodup : (g.nodes.map (·.1)).Nodup)
    (hdigits : ∀ s ∈ graphStepNumbers g, (strToNat? s).isSome = true)
    (hchain : List.Chain' (fun a b => ∃ s ∈ graphStepNumbers g,
        stepQualifies (pyInt a.first_step_number_affected) (pyInt b.first_step_number_affected) s)
      (g.multi_step_instructions.insertionSort msiLe)) :
    ∀ entry ∈ g.nodes,
      (clusterDeclCount (_convert_nodes_to_dot g) entry.1 +
        topDeclCount (_convert_nodes_to_dot g) entry.1 = 1) ∧
      ((∃ r ∈ graphRanges g, entry.1 ∈ _get_nodes_in_step_range g.nodes r.2.1 r.2.2) →
        clusterDeclCount (_convert_nodes_to_dot g) entry.1 = 1 ∧
        topDeclCount (_convert_nodes_to_dot g) entry.1 = 0) ∧
      ((¬ ∃ r ∈ graphRanges g, entry.1 ∈ _get_nodes_in_step_range g.nodes r.2.1 r.2.2) →
        clusterDeclCount (_convert_nodes_to_dot g) entry.1 = 0 ∧
        topDeclCount (_convert_nodes_to_dot g) entry.1 = 1) := by
  intro entry hentry
  obtain ⟨key, payload⟩ := entry
  have hkeymem : key ∈ g.nodes.map (·.1) := List.mem_map.mpr ⟨(key, payload), hentry, rfl⟩
  by_cases hins : g.multi_step_instructions.isEmpty
  · have hparts : _convert_nodes_to_dot g =
        g.nodes.map (fun entry => DotPart.nodeDecl entry.1) := by
      unfold _convert_nodes_to_dot
      rw [if_pos hins]
    have hranges0 : graphRanges g = [] := by
      unfold graphRanges _compute_instruction_ranges
      rw [if_pos hins]
    have hcluster : clusterDeclCount (_convert_nodes_to_dot g) key = 0 := by
      rw [hparts, clusterDeclCount_nodeDecls]
    have htop : topDeclCount (_convert_nodes_to_dot g) key = 1 := by
      rw [hparts, topDeclCount_nodeDecls]
      exact List.count_eq_one_of_mem hkeysnodup hkeymem
    refine ⟨by dsimp only; omega, ?_, fun _ => ⟨hcluster, htop⟩⟩
    rintro ⟨r, hr, _⟩
    rw [hranges0] at hr
    cases hr
  · have hparts : _convert_nodes_to_dot g =
        ((graphRanges g).map (fun r =>
          DotPart.cluster (_get_multi_step_instruction_node_key r.1)
            (_get_nodes_in_step_range g.nodes r.2.1 r.2.2)))
        ++ ((g.nodes.filter (fun entry => !(nodesInClusters g).contains entry.1)).map
          (fun entry => DotPart.nodeDecl entry.1)) := by
      unfold _convert_nodes_to_dot
      rw [if_neg hins]
    have hdisjoint := graphRanges_key_disjoint g hkeysnodup hdigits hchain hins hentry
    have hcluster : clusterDeclCount (_convert_nodes_to_dot g) key =
        (((graphRanges g).map
          (fun r => _get_nodes_in_step_range g.nodes r.2.1 r.2.2)).map
            (List.count key)).sum := by
      rw [hparts, clusterDeclCount_append, clusterDeclCount_nodeDecls,
        clusterDeclCount_clusters]
      rw [List.map_map]
      rfl
    have hclustersum : clusterDeclCount (_convert_nodes_to_dot g) key =
        if ∃ r ∈ graphRanges g, key ∈ _get_nodes_in_step_range g.nodes r.2.1 r.2.2
        then 1 else 0 := by
      rw [hcluster]
      rw [sum_count_disjoint _ ?_ ?_]
      · by_cases hex : ∃ r ∈ graphRanges g, key ∈ _get_nodes_in_step_range g.nodes r.2.1 r.2.2
        · rw [if_pos hex, if_pos ?_]
          obtain ⟨r, hr, hk⟩ := hex
          exact ⟨_, List.mem_map.mpr ⟨r, hr, rfl⟩, hk⟩
        · rw [if_neg hex, if_neg ?_]
          rintro ⟨l, hl, hk⟩
          obtain ⟨r, hr, rfl⟩ := List.mem_map.mp hl
          exact hex ⟨r, hr, hk⟩
      · intro l hl
        obtain ⟨r, _, rfl⟩ := List.mem_map.mp hl
        exact nodes_in_step_range_nodup hkeysnodup _ _
      · rw [List.pairwise_map]
        exact hdisjoint
    have htopcount : topDeclCount (_convert_nodes_to_dot g) key =
        ((g.nodes.filter (fun entry => !(nodesInClusters g).contains entry.1)).map (·.1)).count
          key := by
      rw [hparts, topDeclCount_append, topDeclCount_clusters, topDeclCount_nodeDecls]
      omega
    by_cases hex : ∃ r ∈ graphRanges g, key ∈ _get_nodes_in_step_range g.nodes r.2.1 r.2.2
    · have hc1 : clusterDeclCount (_convert_nodes_to_dot g) key = 1 := by
        rw [hclustersum, if_pos hex]
      have ht0 : topDeclCount (_convert_nodes_to_dot g) key = 0 := by
        rw [htopcount, List.count_eq_zero]
        intro hmem'
        obtain ⟨entry', hentry', hkeyeq'⟩ := List.mem_map.mp hmem'
        rcases List.mem_filter.mp hentry' with ⟨_, hcond⟩
        rw [hkeyeq'] at hcond
        simp only [Bool.not_eq_true'] at hcond
        have hkin : key ∈ nodesInClusters g := mem_nodesInClusters.mpr hex
        simp at hcond
        exact hcond hkin
      exact ⟨by dsimp only; omega, fun _ => ⟨hc1, ht0⟩, fun hnex => absurd hex hnex⟩
    · have hc0 : clusterDeclCount (_convert_nodes_to_dot g) key = 0 := by
        rw [hclustersum, if_neg hex]
      have ht1 : topDeclCount (_convert_nodes_to_dot g) key = 1 := by
        rw [htopcount]
        have hnotin : key ∉ nodesInClusters g := fun h => hex (mem_nodesInClusters.mp h)
        have hmemfilter : (key, payload) ∈
            g.nodes.filter (fun entry => !(nodesInClusters g).contains entry.1) := by
          rw [List.mem_filter]
          refine ⟨hentry, ?_⟩
          simpa using hnotin
        have hmem' : key ∈ (g.nodes.filter
            (fun entry => !(nodesInClusters g).contains entry.1)).map (·.1) :=
          List.mem_map.mpr ⟨(key, payload), hmemfilter, rfl⟩
        have hsub : ((g.nodes.filter
            (fun entry => !(nodesInClusters g).contains entry.1)).map (·.1)).Sublist
            (g.nodes.map (·.1)) :=
          (List.filter_sublist _).map _
        exact List.count_eq_one_of_mem (hkeysnodup.sublist hsub) hmem'
      exact ⟨by dsimp only; omega, fun hex' => absurd hex' hex, fun _ => ⟨hc0, ht1⟩⟩

/-- A concrete rebdhuhn graph with four instructions and nodes both inside
and outside instruction ranges. -/
def c10Graph : REbdGraph :=
  ⟨[("Start", .startNode),
    ("100", .decisionNode "100" "q"), ("105", .transitionNode "105" "q" none),
    ("205", .decisionNode "205" "q"), ("210", .decisionNode "210" "q"),
    ("305", .decisionNode "305" "q"), ("310", .decisionNode "310" "q"),
    ("400", .decisionNode "400" "q"), ("410", .decisionNode "410" "q"),
    ("A01", .outcomeNode "A01" (some "n")), ("Ende", .endNode)],
   [⟨"I1", "100"⟩, ⟨"I2", "205"⟩, ⟨"I3", "305"⟩, ⟨"I4", "400"⟩]⟩

/-- Witness for C10: in the concrete graph the step node "105" is declared
exactly once, inside its cluster, and the stepless outcome node "A01" is
declared exactly once, at top level. -/
theorem c10_every_node_declared_once_witness :
    (clusterDeclCount (_convert_nodes_to_dot c10Graph) "105" = 1 ∧
      topDeclCount (_convert_nodes_to_dot c10Graph) "105" = 0) ∧
    (clusterDeclCount (_convert_nodes_to_dot c10Graph) "A01" = 0 ∧
      topDeclCount (_convert_nodes_to_dot c10Graph) "A01" = 1) := by
  have hchain : List.Chain' (fun a b => ∃ s ∈ graphStepNumbers c10Graph,
      stepQualifies (pyInt a.first_step_number_affected) (pyInt b.first_step_number_affected) s)
      (c10Graph.multi_step_instructions.insertionSort msiLe) := by
    rw [show c10Graph.multi_step_instructions.insertionSort msiLe =
      c10Graph.multi_step_instructions from by decide]
    exact List.chain'_cons.mpr ⟨⟨"100", by decide, by decide⟩,
      List.chain'_cons.mpr ⟨⟨"205", by decide, by decide⟩,
        List.chain'_cons.mpr ⟨⟨"305", by decide, by decide⟩, List.chain'_singleton _⟩⟩⟩
  have h := c10_every_node_declared_once c10Graph (by decide) (by decide) hchain
  constructor
  · exact (h ("105", .transitionNode "105" "q" none) (by decide)).2.1
      ⟨(⟨"I1", "100"⟩, "100", some "105"), by decide, by decide⟩
  · exact (h ("A01", .outcomeNode "A01" (some "n")) (by decide)).2.2 (by decide)

/-! ## Claim C3

Specification side definitions: simple directed paths in the graph, common
interior nodes of a family of paths, and the last common ancestor — the
most recent node (excluding Start and the target) through which every path
passes.
-/

/-- Executable chain check: consecutive list entries are edges of the graph. -/
def isPathInB (g : DiGraph) : List String → Bool
  | [] => true
  | [_] => true
  | a :: b :: rest => (g.successors a).contains b && isPathInB g (b :: rest)

/-- A simple directed path from source to target in the graph. -/
def isSimplePath (g : DiGraph) (source target : String) (p : List String) : Prop :=
  p.head? = some source ∧ p.getLast? = some target ∧ p.Nodup ∧ isPathInB g p = true

/-- The node lies on every path of the family. -/
def memAllPaths (paths : List (List String)) (a : String) : Prop :=
  ∀ p ∈ paths, a ∈ p

/-- A common node of all paths other than Start and the target itself. -/
def isCommonInterior (paths : List (List String)) (target a : String) : Prop :=
  memAllPaths paths a ∧ a ≠ "Start" ∧ a ≠ target

/-- The most recent node lying on every path, excluding Start and the
target: every other common interior node occurs no later than it on every
path of the family. -/
def isLastCommonAncestor (paths : List (List String)) (target a : String) : Prop :=
  isCommonInterior paths target a ∧
    ∀ b, isCommonInterior paths target b → ∀ p ∈ paths, p.indexOf b ≤ p.indexOf a

theorem isPathInB_chain' {g : DiGraph} : ∀ {p : List String}, isPathInB g p = true →
    List.Chain' (fun a b => b ∈ g.successors a) p := by
  intro p
  induction p with
  | nil => intro _; exact List.chain'_nil
  | cons a rest ih =>
    intro h
    cases rest with
    | nil => exact List.chain'_singleton a
    | cons b rest' =>
      rw [isPathInB, Bool.and_eq_true] at h
      exact List.chain'_cons.mpr ⟨by simpa using h.1, ih h.2⟩

theorem rank_pairwise {g : DiGraph} {rank : String → Nat}
    (hrank : ∀ e ∈ g.edges, rank e.1 < rank e.2.1)
    {p : List String} (hp : isPathInB g p = true) :
    List.Pairwise (fun a b => rank a < rank b) p := by
  have hchain := isPathInB_chain' hp
  have hlt : List.Chain' (fun a b => rank a < rank b) p := by
    refine hchain.imp ?_
    intro a b hmem
    unfold DiGraph.successors at hmem
    obtain ⟨e, hemem, herel⟩ := List.mem_map.mp hmem
    rcases List.mem_filter.mp hemem with ⟨hein, hsrc⟩
    have h1 := hrank e hein
    have hsrc' : e.1 = a := by simpa using hsrc
    rw [hsrc', herel] at h1
    exact h1
  haveI : IsTrans String (fun a b => rank a < rank b) := ⟨fun _ _ _ => Nat.lt_trans⟩
  exact List.chain'_iff_pairwise.mp hlt

theorem indexOf_mem_inj {p : List String} {b c : String} (hb : b ∈ p) (hc : c ∈ p)
    (h : p.indexOf b = p.indexOf c) : b = c := by
  have h1 : p[p.indexOf b]? = some b := by
    rw [List.getElem?_eq_getElem (List.indexOf_lt_length.mpr hb)]
    rw [List.getElem_indexOf]
  have h2 : p[p.indexOf c]? = some c := by
    rw [List.getElem?_eq_getElem (List.indexOf_lt_length.mpr hc)]
    rw [List.getElem_indexOf]
  rw [h] at h1
  rw [h1] at h2
  injection h2

theorem rank_lt_of_indexOf_lt {g : DiGraph} {rank : String → Nat}
    (hrank : ∀ e ∈ g.edges, rank e.1 < rank e.2.1)
    {p : List String} (hp : isPathInB g p = true) {b c : String} (hb : b ∈ p) (hc : c ∈ p)
    (hlt : p.indexOf b < p.indexOf c) : rank b < rank c := by
  have hpw := rank_pairwise hrank hp
  have h1 := List.getElem_indexOf (List.indexOf_lt_length.mpr hb)
  have h2 := List.getElem_indexOf (List.indexOf_lt_length.mpr hc)
  have := List.pairwise_iff_getElem.mp hpw (p.indexOf b) (p.indexOf c)
    (List.indexOf_lt_length.mpr hb) (List.indexOf_lt_length.mpr hc) hlt
  rwa [h1, h2] at this

theorem indexOf_le_of_rank_le {g : DiGraph} {rank : String → Nat}
    (hrank : ∀ e ∈ g.edges, rank e.1 < rank e.2.1)
    {p : List String} (hp : isPathInB g p = true) {b c : String} (hb : b ∈ p) (hc : c ∈ p)
    (hle : rank b ≤ rank c) : p.indexOf b ≤ p.indexOf c := by
  by_contra hgt
  have hlt : p.indexOf c < p.indexOf b := by omega
  have := rank_lt_of_indexOf_lt hrank hp hc hb hlt
  omega

theorem indexOf_append_mem {b : String} {l l₂ : List String} (h : b ∈ l) :
    (l ++ l₂).indexOf b = l.indexOf b := by
  induction l with
  | nil => cases h
  | cons c cs ih =>
    rw [List.cons_append, List.indexOf_cons, List.indexOf_cons]
    cases hcb : c == b with
    | true => rfl
    | false =>
      have hbcs : b ∈ cs := by
        rcases List.mem_cons.mp h with rfl | hmem
        · rw [beq_self_eq_true] at hcb
          cases hcb
        · exact hmem
      rw [ih hbcs]

theorem indexOf_append_self_of_not_mem {x : String} {l : List String} (h : x ∉ l) :
    (l ++ [x]).indexOf x = l.length := by
  induction l with
  | nil => simp
  | cons c cs ih =>
    rw [List.cons_append, List.indexOf_cons]
    have hcx : (c == x) = false := by
      simp only [beq_eq_false_iff_ne]
      intro heq
      exact h (heq ▸ List.mem_cons_self c cs)
    rw [hcx]
    simp only [cond_false, List.length_cons]
    rw [ih (fun hmem => h (List.mem_cons_of_mem c hmem))]

theorem find_rev_max {l : List String} (hnd : l.Nodup) {p : String → Bool} {a₀ : String}
    (h : l.reverse.find? p = some a₀) :
    ∀ b ∈ l, p b = true → l.indexOf b ≤ l.indexOf a₀ := by
  induction l using List.reverseRecOn with
  | nil => cases h
  | append_singleton l x ih =>
    rw [List.reverse_append, List.reverse_singleton, List.singleton_append,
      List.find?_cons] at h
    rcases List.nodup_append.mp hnd with ⟨hndl, _, hdisj⟩
    have hxnotl : x ∉ l := fun hx => hdisj hx (List.mem_singleton.mpr rfl)
    cases hpx : p x with
    | true =>
      rw [hpx] at h
      injection h with h'
      intro b hb _
      have hblt : (l ++ [x]).indexOf b < (l ++ [x]).length :=
        List.indexOf_lt_length.mpr hb
      rw [← h']
      rw [indexOf_append_self_of_not_mem hxnotl]
      rw [List.length_append, List.length_singleton] at hblt
      omega
    | false =>
      rw [hpx] at h
      have hmax := ih hndl h
      have ha₀l : a₀ ∈ l := by
        have := List.mem_of_find?_eq_some h
        rwa [List.mem_reverse] at this
      intro b hb hpb
      have hbl : b ∈ l := by
        rcases List.mem_append.mp hb with hmem | hmem
        · exact hmem
        · exfalso
          rw [List.mem_singleton.mp hmem] at hpb
          rw [hpx] at hpb
          cases hpb
      rw [indexOf_append_mem hbl, indexOf_append_mem ha₀l]
      exact hmax b hbl hpb

/-- Claim C3: on an acyclic graph (witnessed by a rank function that
increases along every edge), given the family of all simple paths from
Start to a node v (at least two of them, as all_simple_paths yields them
for an in-degree > 1 node), and given that some common interior node
exists, _find_last_common_ancestor returns exactly the last common
ancestor: the most recent node lying on every path, excluding Start and v
itself. -/
theorem c3_find_last_common_ancestor_correct (g : DiGraph) (rank : String → Nat)
    (hrank : ∀ e ∈ g.edges, rank e.1 < rank e.2.1)
    (v : String) (paths : List (List String))
    (hpaths : ∀ p ∈ paths, isSimplePath g "Start" v p)
    (hlen : 2 ≤ paths.length)
    (hcommon : ∃ a, isCommonInterior paths v a) :
    ∃ a, _find_last_common_ancestor paths = some a ∧ isLastCommonAncestor paths v a := by
  obtain ⟨a, hamem, hastart, hav⟩ := hcommon
  have hne : paths ≠ [] := by
    intro h
    rw [h] at hlen
    simp at hlen
  have hgetlast : paths.getLast? = some (paths.getLast hne) :=
    List.getLast?_eq_getLast paths hne
  obtain ⟨hhead, hlast, hnodup, hchain⟩ := hpaths (paths.getLast hne) (List.getLast_mem hne)
  have hrefne : paths.getLast hne ≠ [] := by
    intro h
    rw [h] at hlast
    cases hlast
  have hlastv : (paths.getLast hne).getLast hrefne = v := by
    rw [List.getLast?_eq_getLast (paths.getLast hne) hrefne] at hlast
    injection hlast
  have hrefeq : (paths.getLast hne).dropLast ++ [v] = paths.getLast hne := by
    rw [← hlastv]
    exact List.dropLast_append_getLast hrefne
  have hnodup' : ((paths.getLast hne).dropLast ++ [v]).Nodup := by
    rw [hrefeq]
    exact hnodup
  rcases List.nodup_append.mp hnodup' with ⟨hnodupp, _, hdisj⟩
  have hvnot : v ∉ (paths.getLast hne).dropLast :=
    fun hv => hdisj hv (List.mem_singleton.mpr rfl)
  have hmem_refp : ∀ b, memAllPaths paths b → b ≠ v → b ∈ (paths.getLast hne).dropLast := by
    intro b hb hbv
    have hbref : b ∈ paths.getLast hne := hb _ (List.getLast_mem hne)
    rw [← hrefeq] at hbref
    rcases List.mem_append.mp hbref with h | h
    · exact h
    · exact absurd (List.mem_singleton.mp h) hbv
  have harefp : a ∈ (paths.getLast hne).dropLast := hmem_refp a hamem hav
  have hPmem : ∀ b, memAllPaths paths b →
      (fun node => (paths.dropLast).all (fun path => path.contains node)) b = true := by
    intro b hb
    rw [List.all_eq_true]
    intro q hq
    have hqpaths : q ∈ paths := (List.dropLast_sublist paths).subset hq
    have hmem := hb q hqpaths
    simpa using hmem
  have hfind_some : (((paths.getLast hne).dropLast.reverse).find?
      (fun node => (paths.dropLast).all (fun path => path.contains node))).isSome := by
    rw [List.find?_isSome]
    exact ⟨a, List.mem_reverse.mpr harefp, hPmem a hamem⟩
  obtain ⟨a₀, hfind⟩ := Option.isSome_iff_exists.mp hfind_some
  have hresult : _find_last_common_ancestor paths = some a₀ := by
    unfold _find_last_common_ancestor
    rw [hgetlast]
    exact hfind
  have hPa₀ := List.find?_some hfind
  have ha₀refp : a₀ ∈ (paths.getLast hne).dropLast :=
    List.mem_reverse.mp (List.mem_of_find?_eq_some hfind)
  have ha₀v : a₀ ≠ v := fun h => hvnot (h ▸ ha₀refp)
  have hmax := find_rev_max hnodupp hfind
  have hdecomp : paths.dropLast ++ [paths.getLast hne] = paths :=
    List.dropLast_append_getLast hne
  have ha₀all : memAllPaths paths a₀ := by
    intro q hq
    rw [← hdecomp] at hq
    rcases List.mem_append.mp hq with h | h
    · have hall := List.all_eq_true.mp hPa₀ q h
      simpa using hall
    · rw [List.mem_singleton.mp h, ← hrefeq]
      exact List.mem_append_left _ ha₀refp
  obtain ⟨c, t, hrefpeq⟩ : ∃ c t, (paths.getLast hne).dropLast = c :: t := by
    cases hrp : (paths.getLast hne).dropLast with
    | nil =>
      rw [hrp] at harefp
      cases harefp
    | cons c t => exact ⟨c, t, rfl⟩
  have hheadc : c = "Start" := by
    have h1 : (paths.getLast hne).head? = some c := by
      rw [← hrefeq, hrefpeq]
      rfl
    rw [hhead] at h1
    injection h1 with h1'
    exact h1'.symm
  have ha₀start : a₀ ≠ "Start" := by
    intro h0
    have hac : a₀ = c := by rw [h0, hheadc]
    have hidx0 : ((paths.getLast hne).dropLast).indexOf a₀ = 0 := by
      rw [hrefpeq, hac]
      exact List.indexOf_cons_self c t
    have hidxa := hmax a harefp (hPmem a hamem)
    rw [hidx0] at hidxa
    have haa₀ : a = a₀ := indexOf_mem_inj harefp ha₀refp (by omega)
    exact hastart (by rw [haa₀, h0])
  refine ⟨a₀, hresult, ⟨ha₀all, ha₀start, ha₀v⟩, ?_⟩
  intro b hbcomm q hq
  obtain ⟨hball, _, hbv⟩ := hbcomm
  have hbrefp : b ∈ (paths.getLast hne).dropLast := hmem_refp b hball hbv
  have hidxle := hmax b hbrefp (hPmem b hball)
  by_cases hba : b = a₀
  · rw [hba]
  · have hlt : ((paths.getLast hne).dropLast).indexOf b <
        ((paths.getLast hne).dropLast).indexOf a₀ := by
      rcases Nat.lt_or_ge (((paths.getLast hne).dropLast).indexOf b)
        (((paths.getLast hne).dropLast).indexOf a₀) with h | h
      · exact h
      · exact absurd (indexOf_mem_inj hbrefp ha₀refp (by omega)) hba
    have hltref : (paths.getLast hne).indexOf b < (paths.getLast hne).indexOf a₀ := by
      rw [← hrefeq, indexOf_append_mem hbrefp, indexOf_append_mem ha₀refp]
      exact hlt
    have hbref : b ∈ paths.getLast hne := by
      rw [← hrefeq]
      exact List.mem_append_left _ hbrefp
    have ha₀ref : a₀ ∈ paths.getLast hne := by
      rw [← hrefeq]
      exact List.mem_append_left _ ha₀refp
    have hrb : rank b < rank a₀ := rank_lt_of_indexOf_lt hrank hchain hbref ha₀ref hltref
    obtain ⟨_, _, _, hqchain⟩ := hpaths q hq
    exact indexOf_le_of_rank_le hrank hqchain (hball q hq) (ha₀all q hq) (Nat.le_of_lt hrb)

/-- The spec's own LCA example: Start -> 1 -> \x7b2, 3\x7d -> 4, both 2 and 3
lead to 4. -/
def c3Graph : DiGraph :=
  ⟨[("Start", .startNode), ("1", .decisionNode "1" "q1"), ("2", .decisionNode "2" "q2"),
    ("3", .decisionNode "3" "q3"), ("4", .decisionNode "4" "q4")],
   [("Start", "1", .plain), ("1", "2", .toYes), ("1", "3", .toNo),
    ("2", "4", .toYes), ("3", "4", .toYes)]⟩

def c3Rank (s : String) : Nat :=
  if s = "Start" then 0
  else if s = "1" then 1
  else if s = "2" then 2
  else if s = "3" then 3
  else 4

/-- Witness for C3 on the spec's example graph: the two simple paths to the
merge node "4" have last common ancestor "1", and the algorithm returns
exactly it. -/
theorem c3_find_last_common_ancestor_correct_witness :
    (∃ a, _find_last_common_ancestor (allSimplePaths c3Graph "Start" "4") = some a ∧
      isLastCommonAncestor (allSimplePaths c3Graph "Start" "4") "4" a) ∧
    _find_last_common_ancestor (allSimplePaths c3Graph "Start" "4") = some "1" :=
  ⟨c3_find_last_common_ancestor_correct c3Graph c3Rank (by decide) "4"
      (allSimplePaths c3Graph "Start" "4") (by unfold isSimplePath; decide) (by decide)
      ⟨"1", by unfold memAllPaths; decide, by decide, by decide⟩,
    by decide⟩

end Rebdhuhn
